import Mathlib

/-!
The csvtk `grep` command: a shallow embedding of `cmd/grep.go`.

The command body `grepCmd.Run` of `cmd/grep.go` is embedded as explicit state
passing.  Library calls (`regexp.Compile`, `(*Regexp).MatchString`,
`strings.ToLower`, the buffered pattern reader, the CSV reader, `xopen.Wopen`,
`csv.Writer`) are fields of a `World`; the values the flag helpers hand to the
body (`parseFields`, `getFlagStringSlice`, ...) are fields of a `Config`.

`checkError` ends the process on a non-nil error; in the embedding every loop
returns the state reached together with an optional error, and an error stops
all further processing.  The output is the sequence of records handed to
`writer.Write`, in call order.
-/

set_option autoImplicit false

namespace Csvtk

/-- One row of tabular data: `[]string`. -/
abbrev Record := List String

/-- One element of a reader channel: a batch of data and an error slot. -/
structure Chunk (α : Type) where
  Data : List α
  Err : Option String

/-- The two `log.Warningf` calls of the record loop. -/
inductive Warning where
  | unknownColumn (col : String)
  | unmatchedField (f : Int)
  deriving DecidableEq, Repr

/-- Every way the command body can end abnormally: the three `fmt.Errorf`
errors of the file, errors returned by a collaborator and passed to
`checkError`, and the two run-time panics the body can raise. -/
inductive Err where
  | onlySingleKey
  | noPatternFlag
  | regexpCompile (msg : String)
  | patternReader (msg : String)
  | outFile (msg : String)
  | csvReader (msg : String)
  | chunk (msg : String)
  | noFieldsMatched
  | write (msg : String)
  | flush (msg : String)
  | indexOutOfRange
  | nilRegexp
  deriving DecidableEq, Repr

/-- The errors raised by the two configuration checks at the top of the body. -/
def Err.isConfig : Err → Bool
  | .onlySingleKey => true
  | .noPatternFlag => true
  | _ => false

/-- The values read from the command line before the body proper starts. -/
structure Config where
  fields : List Int
  colnames : List String
  needParseHeaderRow : Bool
  patterns : List String
  patternFile : String
  ignoreCase : Bool
  useRegexp : Bool
  invert : Bool
  outFile : String

/-- The collaborators of the command body, over a type `Re` of compiled
regular expressions. `writeErr out r` is the error returned by the call of
`writer.Write` with `r` after the calls `out`; `flushErr out` is
`writer.Error()` after the final flush. -/
structure World (Re : Type) where
  toLower : String → String
  compile : String → Except String Re
  matchString : Re → String → Bool
  patternReader : String → Except String (List (Chunk String))
  wopen : String → Option String
  csvReader : String → Except String (List (Chunk Record))
  writeErr : List Record → Record → Option String
  flushErr : List Record → Option String

/-! ## Go maps as association lists with unique keys -/

/-- Map assignment `m[k] = v`: replaces the entry of `k` if there is one. -/
def mapSet {κ ν : Type} [DecidableEq κ] : List (κ × ν) → κ → ν → List (κ × ν)
  | [], k, v => [(k, v)]
  | (k0, v0) :: t, k, v =>
    if k0 = k then (k, v) :: t else (k0, v0) :: mapSet t k v

/-- Map lookup `v, ok := m[k]`. -/
def mapGet {κ ν : Type} [DecidableEq κ] : List (κ × ν) → κ → Option ν
  | [], _ => none
  | (k0, v0) :: t, k => if k0 = k then some v0 else mapGet t k

/-- The type of `patternsMap`: `map[string]*regexp.Regexp`, `none` being the
nil pointer. -/
abbrev PatternsMap (Re : Type) := List (String × Option Re)

/-! ## Building the pattern map (lines 62-105) -/

/-- The loop over the inline patterns, lines 63-79. -/
def inlinePatterns {Re : Type} (W : World Re) (ignoreCase useRegexp : Bool) :
    PatternsMap Re → List String → Except Err (PatternsMap Re)
  | m, [] => .ok m
  | m, pattern :: rest =>
    if useRegexp then
      let p := if ignoreCase then "(?i)" ++ pattern else pattern
      match W.compile p with
      | .error e => .error (.regexpCompile e)
      | .ok re => inlinePatterns W ignoreCase useRegexp (mapSet m pattern (some re)) rest
    else
      if ignoreCase then
        inlinePatterns W ignoreCase useRegexp (mapSet m (W.toLower pattern) none) rest
      else
        inlinePatterns W ignoreCase useRegexp (mapSet m pattern none) rest

/-- The loop over the data of one chunk of the pattern file, lines 86-103. -/
def filePatternsData {Re : Type} (W : World Re) (ignoreCase useRegexp : Bool) :
    PatternsMap Re → List String → Except Err (PatternsMap Re)
  | m, [] => .ok m
  | m, data :: rest =>
    let pattern := data
    if useRegexp then
      let p := if ignoreCase then "(?i)" ++ pattern else pattern
      match W.compile p with
      | .error e => .error (.regexpCompile e)
      | .ok re => filePatternsData W ignoreCase useRegexp (mapSet m pattern (some re)) rest
    else
      if ignoreCase then
        filePatternsData W ignoreCase useRegexp (mapSet m (W.toLower pattern) none) rest
      else
        filePatternsData W ignoreCase useRegexp (mapSet m pattern none) rest

/-- The loop over the chunks of the pattern file, lines 84-104. -/
def filePatternsChunks {Re : Type} (W : World Re) (ignoreCase useRegexp : Bool) :
    PatternsMap Re → List (Chunk String) → Except Err (PatternsMap Re)
  | m, [] => .ok m
  | m, c :: cs =>
    match c.Err with
    | some e => .error (.patternReader e)
    | none =>
      match filePatternsData W ignoreCase useRegexp m c.Data with
      | .error e => .error e
      | .ok m1 => filePatternsChunks W ignoreCase useRegexp m1 cs

/-- Lines 62-105: the inline patterns, then the pattern file if one is named. -/
def buildPatterns {Re : Type} (W : World Re) (cfg : Config) : Except Err (PatternsMap Re) :=
  match inlinePatterns W cfg.ignoreCase cfg.useRegexp [] cfg.patterns with
  | .error e => .error e
  | .ok m =>
    if cfg.patternFile ≠ "" then
      match W.patternReader cfg.patternFile with
      | .error e => .error (.patternReader e)
      | .ok chunks => filePatternsChunks W cfg.ignoreCase cfg.useRegexp m chunks
    else .ok m

/-! ## The record loop (lines 118-212) -/

/-- The variables the record loop reads and writes: `fields` (declared before
the loop over the files, so it outlives a file), the writer's call log, the
warnings logged, and the per-file variables `parseHeaderRow`, `checkFields`
and `items`. The per-file variables `colnames2fileds`, `HeaderRow`, `target`
and `hit` are assigned before each use and are local to `processRecord`. -/
structure St where
  fields : List Int
  out : List Record
  warns : List Warning
  parseHeaderRow : Bool
  checkFields : Bool
  items : List String
  deriving DecidableEq, Repr

/-- Lines 137-140: the map from column name to 1-based position. -/
def headerMapFrom : List (String × Int) → Nat → Record → List (String × Int)
  | m, _, [] => m
  | m, i, col :: rest => headerMapFrom (mapSet m col ((i : Int) + 1)) (i + 1) rest

/-- The map `colnames2fileds` built from a header row. -/
def headerMap (record : Record) : List (String × Int) :=
  headerMapFrom [] 0 record

/-- Lines 143-150: the fields of the column names found in the header, and the
warnings for those not found. -/
def resolveColnames (colnames2fileds : List (String × Int)) :
    List Int → List Warning → List String → List Int × List Warning
  | fields, warns, [] => (fields, warns)
  | fields, warns, col :: rest =>
    match mapGet colnames2fileds col with
    | some v => resolveColnames colnames2fileds (fields ++ [v]) warns rest
    | none => resolveColnames colnames2fileds fields (warns ++ [.unknownColumn col]) rest

/-- Lines 160-167: the fields not greater than the record length, and the
warnings for the others. -/
def checkFieldsLoop (record : Record) :
    List Int → List Warning → List Int → List Int × List Warning
  | fields2, warns, [] => (fields2, warns)
  | fields2, warns, f :: rest =>
    if f > (record.length : Int) then
      checkFieldsLoop record fields2 (warns ++ [.unmatchedField f]) rest
    else
      checkFieldsLoop record (fields2 ++ [f]) warns rest

/-- Lines 177-179: `items[i] = record[f-1]` for each field, with the bounds
checks of both index expressions. -/
def fillItems (record : Record) : Nat → List Int → List String → Except Err (List String)
  | _, [], items => .ok items
  | i, f :: rest, items =>
    if f - 1 < 0 then .error .indexOutOfRange
    else
      match record.get? (f - 1).toNat with
      | none => .error .indexOutOfRange
      | some v =>
        if i < items.length then fillItems record (i + 1) rest (items.set i v)
        else .error .indexOutOfRange

/-- Lines 185-190: the loop over the pattern map in regexp mode; calling
`MatchString` on a nil pointer panics. -/
def regexpLoop {Re : Type} (W : World Re) (target : String) :
    PatternsMap Re → Except Err Bool
  | [] => .ok false
  | (_, none) :: _ => .error .nilRegexp
  | (_, some re) :: rest =>
    if W.matchString re target then .ok true else regexpLoop W target rest

/-- Lines 182-199: the value of `hit` for a target. -/
def isHit {Re : Type} (W : World Re) (cfg : Config) (patternsMap : PatternsMap Re)
    (target : String) : Except Err Bool :=
  if cfg.useRegexp then regexpLoop W target patternsMap
  else
    let k := if cfg.ignoreCase then W.toLower target else target
    match mapGet patternsMap k with
    | some _ => .ok true
    | none => .ok false

/-- Lines 200-208: whether the record reaches the `writer.Write` of line 209. -/
def keep (invert hit : Bool) : Bool :=
  if invert then (if hit then false else true) else (if !hit then false else true)

/-- Lines 137-151: the header map, and the resolution of the column names when
`fields` is empty. -/
def resolveHeader (cfg : Config) (st : St) (record : Record) : St :=
  let colnames2fileds := headerMap record
  if st.fields.length = 0 then
    let fw := resolveColnames colnames2fileds [] st.warns cfg.colnames
    { st with fields := fw.1, warns := fw.2 }
  else st

/-- Lines 136-157: the header branch. -/
def parseHeader {Re : Type} (W : World Re) (cfg : Config) (st : St) (record : Record) :
    St × Option Err :=
  let st1 := resolveHeader cfg st record
  let HeaderRow := record
  match W.writeErr st1.out HeaderRow with
  | some e => ({ st1 with out := st1.out ++ [HeaderRow] }, some (.write e))
  | none => ({ st1 with out := st1.out ++ [HeaderRow], parseHeaderRow := false }, none)

/-- Lines 159-175: the validation of the fields against the first data record. -/
def validateFields (st : St) (record : Record) : St × Option Err :=
  if st.checkFields then
    let fw := checkFieldsLoop record [] st.warns st.fields
    let st1 : St := { st with fields := fw.1, warns := fw.2 }
    if st1.fields.length = 0 then (st1, some .noFieldsMatched)
    else ({ st1 with items := List.replicate st1.fields.length "", checkFields := false }, none)
  else (st, none)

/-- Lines 177-209: extraction of the target, evaluation of `hit`, invert, and
the write of a kept record. -/
def matchRecord {Re : Type} (W : World Re) (cfg : Config) (patternsMap : PatternsMap Re)
    (st1 : St) (record : Record) : St × Option Err :=
  match fillItems record 0 st1.fields st1.items with
  | .error e => (st1, some e)
  | .ok items =>
    let st2 : St := { st1 with items := items }
    match items with
    | [] => (st2, some .indexOutOfRange)
    | target :: _ =>
      match isHit W cfg patternsMap target with
      | .error e => (st2, some e)
      | .ok hit =>
        if keep cfg.invert hit then
          match W.writeErr st2.out record with
          | some e => ({ st2 with out := st2.out ++ [record] }, some (.write e))
          | none => ({ st2 with out := st2.out ++ [record] }, none)
        else (st2, none)

/-- Lines 135-210: the body of the loop over the records of a chunk. -/
def processRecord {Re : Type} (W : World Re) (cfg : Config) (patternsMap : PatternsMap Re)
    (st : St) (record : Record) : St × Option Err :=
  if st.parseHeaderRow then parseHeader W cfg st record
  else
    match validateFields st record with
    | (st1, some e) => (st1, some e)
    | (st1, none) => matchRecord W cfg patternsMap st1 record

/-- Line 135: the loop over the records of one chunk. -/
def recordsLoop {Re : Type} (W : World Re) (cfg : Config) (patternsMap : PatternsMap Re) :
    St → List Record → St × Option Err
  | st, [] => (st, none)
  | st, record :: rest =>
    match processRecord W cfg patternsMap st record with
    | (st1, some e) => (st1, some e)
    | (st1, none) => recordsLoop W cfg patternsMap st1 rest

/-- Lines 132-211: the loop over the chunks of one input file. -/
def chunksLoop {Re : Type} (W : World Re) (cfg : Config) (patternsMap : PatternsMap Re) :
    St → List (Chunk Record) → St × Option Err
  | st, [] => (st, none)
  | st, c :: cs =>
    match c.Err with
    | some e => (st, some (.chunk e))
    | none =>
      match recordsLoop W cfg patternsMap st c.Data with
      | (st1, some e) => (st1, some e)
      | (st1, none) => chunksLoop W cfg patternsMap st1 cs

/-- Lines 123-130: the per-file variables at the start of a file. -/
def fileInit (cfg : Config) (st : St) : St :=
  { st with parseHeaderRow := cfg.needParseHeaderRow, checkFields := true, items := [] }

/-- Lines 118-212: the loop over the input files. -/
def filesLoop {Re : Type} (W : World Re) (cfg : Config) (patternsMap : PatternsMap Re) :
    St → List String → St × Option Err
  | st, [] => (st, none)
  | st, file :: rest =>
    match W.csvReader file with
    | .error e => (st, some (.csvReader e))
    | .ok chunks =>
      match chunksLoop W cfg patternsMap (fileInit cfg st) chunks with
      | (st1, some e) => (st1, some e)
      | (st1, none) => filesLoop W cfg patternsMap st1 rest

/-- What a run leaves behind: the records handed to the writer, the warnings
logged, and the error that ended the run, if any. -/
structure Outcome where
  out : List Record
  warns : List Warning
  err : Option Err
  deriving DecidableEq, Repr

/-- The command body, lines 42-215, for a configuration and a list of input
files. -/
def Run {Re : Type} (W : World Re) (cfg : Config) (files : List String) : Outcome :=
  if cfg.fields.length > 1 ∨ cfg.colnames.length > 1 then
    ⟨[], [], some .onlySingleKey⟩
  else if cfg.patterns.length = 0 ∧ cfg.patternFile = "" then
    ⟨[], [], some .noPatternFlag⟩
  else
    match buildPatterns W cfg with
    | .error e => ⟨[], [], some e⟩
    | .ok patternsMap =>
      match W.wopen cfg.outFile with
      | some e => ⟨[], [], some (.outFile e)⟩
      | none =>
        match filesLoop W cfg patternsMap ⟨cfg.fields, [], [], false, true, []⟩ files with
        | (st, some e) => ⟨st.out, st.warns, some e⟩
        | (st, none) =>
          match W.flushErr st.out with
          | some e => ⟨st.out, st.warns, some (.flush e)⟩
          | none => ⟨st.out, st.warns, none⟩

/-! ## Definitions used to state the properties -/

/-- The key under which a literal pattern is stored, lines 73-77. -/
def literalKey {Re : Type} (W : World Re) (ignoreCase : Bool) (pattern : String) : String :=
  if ignoreCase then W.toLower pattern else pattern

/-- The state left by the extraction of the target `v` of a data record. -/
def afterData (st : St) (v : String) : St :=
  { st with checkFields := false, items := [v] }

/-- What the record loop does with a data record once its target `v` is known:
lines 182-209. -/
def decide_and_write {Re : Type} (W : World Re) (cfg : Config) (pm : PatternsMap Re)
    (st : St) (record : Record) (v : String) : St × Option Err :=
  match isHit W cfg pm v with
  | .error e => (afterData st v, some e)
  | .ok hit =>
    if keep cfg.invert hit then
      match W.writeErr st.out record with
      | some e => ({ afterData st v with out := st.out ++ [record] }, some (.write e))
      | none => ({ afterData st v with out := st.out ++ [record] }, none)
    else (afterData st v, none)

/-- The text handed to `regexp.Compile` for a pattern, lines 65-68. -/
def regexpSource (ignoreCase : Bool) (pattern : String) : String :=
  if ignoreCase then "(?i)" ++ pattern else pattern

/-- Every value of the map is a compiled expression (no nil pointer). -/
def allCompiled {Re : Type} (m : PatternsMap Re) : Prop :=
  ∀ e ∈ m, ∃ re, e.2 = some re

/-- The configuration `cfg` with the invert flag set to `b`. -/
def withInvert (cfg : Config) (b : Bool) : Config :=
  { cfg with invert := b }

/-- The records a stream delivers before its first chunk error. -/
def readable {α : Type} : List (Chunk α) → List α
  | [] => []
  | c :: cs =>
    match c.Err with
    | some _ => []
    | none => c.Data ++ readable cs

/-- All records of a stream, chunk after chunk. -/
def allRecords {α : Type} : List (Chunk α) → List α
  | [] => []
  | c :: cs => c.Data ++ allRecords cs

/-- The header row of a stream, if header parsing is on and there is one. -/
def headerRows (cfg : Config) (rs : List Record) : List Record :=
  if cfg.needParseHeaderRow then rs.take 1 else []

/-- The data records of a stream: all but the header row. -/
def dataRows (cfg : Config) (rs : List Record) : List Record :=
  if cfg.needParseHeaderRow then rs.drop 1 else rs

/-- The keep predicate of a data record for a field list: the target is the
value at the first field, `hit` is evaluated on it, and invert is applied. -/
def keeps {Re : Type} (W : World Re) (cfg : Config) (pm : PatternsMap Re)
    (fields : List Int) (r : Record) : Bool :=
  match fields with
  | [] => false
  | f :: _ =>
    if f - 1 < 0 then false
    else
      match r.get? (f - 1).toNat with
      | none => false
      | some v =>
        match isHit W cfg pm v with
        | .ok hit => keep cfg.invert hit
        | .error _ => false

/-! ## A concrete world -/

/-- Lower-case fold of one character, ASCII letters only. -/
def lowerChar (c : Char) : Char :=
  if 65 ≤ c.toNat ∧ c.toNat ≤ 90 then Char.ofNat (c.toNat + 32) else c

/-- Lower-case fold of a string, ASCII letters only. -/
def asciiLower (s : String) : String :=
  String.mk (s.data.map lowerChar)

/-- A concrete world: ASCII case folding, expressions that match the values
they are a prefix of (and, compiled with the case-insensitive flag, the values
whose fold they are a prefix of), no pattern file, the given input files, and a
writer that never fails. -/
def sampleWorld (files : String → Except String (List (Chunk Record))) :
    World (Bool × List Char) where
  toLower := asciiLower
  compile := fun p =>
    if p.data = "(".data then .error "missing closing )"
    else if "(?i)".data.isPrefixOf p.data then .ok (true, (p.data.drop 4).map lowerChar)
    else .ok (false, p.data)
  matchString := fun re s =>
    if re.1 then re.2.isPrefixOf (s.data.map lowerChar) else re.2.isPrefixOf s.data
  patternReader := fun _ => .error "no such file"
  wopen := fun _ => none
  csvReader := files
  writeErr := fun _ _ => none
  flushErr := fun _ => none

/-- The four rows of the fruit table. -/
def fruitRows : List Record :=
  [["id", "name"], ["1", "apple"], ["2", "banana"], ["3", "Apple"]]

/-- The configuration of the fruit scenario: key column `name`, header parsing
on, the single literal pattern `apple`. -/
def fruitConfig (ignoreCase invert : Bool) : Config :=
  ⟨[], ["name"], true, ["apple"], "", ignoreCase, false, invert, "-"⟩

/-- The fruit table, and two input files with the column `name` at different
positions. -/
def sampleFiles : String → Except String (List (Chunk Record)) := fun file =>
  if file = "fruit.csv" then .ok [⟨fruitRows, none⟩]
  else if file = "first.csv" then .ok [⟨[["id", "name"], ["1", "apple"]], none⟩]
  else if file = "second.csv" then .ok [⟨[["name", "id"], ["apple", "7"]], none⟩]
  else .error "no such file"

/-- The concrete world reading the sample files. -/
def fruitWorld : World (Bool × List Char) :=
  sampleWorld sampleFiles

/-- The state of the record loop after the header `id,name` of the fruit table
has bound the key `name` to field 2. -/
def afterHeader : St :=
  ⟨[2], [["id", "name"]], [], false, true, []⟩

/-- A configuration in regexp mode with the two patterns `a` and `b`. -/
def twoPatternConfig : Config :=
  ⟨[], ["name"], true, ["a", "b"], "", false, true, false, "-"⟩

/-- A configuration in literal mode with ignore-case on, key field 1, no header
row and the single pattern `p`. -/
def foldConfig (p : String) : Config :=
  ⟨[1], [], false, [p], "", true, false, false, "-"⟩

/-- The state of the record loop at the start of the first file. -/
def startState (cfg : Config) : St :=
  fileInit cfg ⟨cfg.fields, [], [], false, true, []⟩

/-! ## Definitions for the pattern source and for changed pattern lists -/

/-- Whether the pattern file, if one is named, opens and delivers all its
chunks without error. -/
def sourceReadable {Re : Type} (W : World Re) (cfg : Config) : Bool :=
  if cfg.patternFile ≠ "" then
    match W.patternReader cfg.patternFile with
    | .ok cs => cs.all (fun c => c.Err.isNone)
    | .error _ => false
  else true

/-- The supplied patterns in the order the command body handles them: the
inline patterns, then the data of the pattern file if one is named. -/
def suppliedPatterns {Re : Type} (W : World Re) (cfg : Config) : List String :=
  if cfg.patternFile ≠ "" then
    match W.patternReader cfg.patternFile with
    | .ok cs => cfg.patterns ++ allRecords cs
    | .error _ => cfg.patterns
  else cfg.patterns

/-- The configuration `cfg` with the inline patterns `P` and no pattern file. -/
def inlineOnly (cfg : Config) (P : List String) : Config :=
  { cfg with patterns := P, patternFile := "" }

/-- The configuration `cfg` with the inline patterns replaced by `P`. -/
def withPatterns (cfg : Config) (P : List String) : Config :=
  { cfg with patterns := P }

/-- The concrete world with a pattern file `patterns.txt` holding the two
lines `b` and `(` in one chunk. -/
def patternWorld : World (Bool × List Char) :=
  { fruitWorld with
    patternReader := fun file =>
      if file = "patterns.txt" then .ok [⟨["b", "("], none⟩] else .error "no such file" }

/-- A configuration in regexp mode or literal mode with the inline pattern `a`
and the pattern file `patterns.txt`. -/
def sourceConfig (useRegexp : Bool) : Config :=
  ⟨[], ["name"], true, ["a"], "patterns.txt", false, useRegexp, false, "-"⟩

/-- A configuration in regexp mode with the inline pattern `a` and a pattern
file that the concrete world cannot open. -/
def missingSourceConfig : Config :=
  ⟨[], ["name"], true, ["a"], "missing.txt", false, true, false, "-"⟩

/-! ## Later streams of a run, and the buffered writer -/

/-- Input files for runs of two streams: `first.csv` binds the key `name` to
field 2; `noname.csv` has no column `name`; `one.csv` has the single column
`name`. -/
def laterFiles : String → Except String (List (Chunk Record)) := fun file =>
  if file = "first.csv" then .ok [⟨[["id", "name"], ["1", "apple"]], none⟩]
  else if file = "noname.csv" then .ok [⟨[["a", "b"], ["x", "apple"]], none⟩]
  else if file = "one.csv" then .ok [⟨[["name"], ["apple"]], none⟩]
  else .error "no such file"

/-- The fruit configuration with the key name `colour`, which the fruit table
does not have. -/
def colourConfig : Config :=
  { fruitConfig false false with colnames := ["colour"] }

/-- An upper bound on the number of bytes the writer puts into its buffer for
one record: a character takes at most four bytes and quoting can double it,
a field can gain two quotes and a delimiter, and the record a line end of two
bytes. -/
def recordSizeBound (r : Record) : Nat :=
  (r.map (fun x => 8 * x.length + 3)).sum + 2

/-- An upper bound on the number of bytes of the `Write` calls `log`. -/
def logSizeBound (log : List Record) : Nat :=
  (log.map recordSizeBound).sum

/-- The size of the buffer that `csv.NewWriter` (line 111) allocates. -/
def writerBufferSize : Nat := 4096

/-- Modelled from the spec: the delimited writer "buffers internally and must
be flushed at end of run". What has reached the output handle after the
`Write` calls `log` while the `Flush` of line 213 has not been called: nothing
as long as the calls fit into the buffer; `none` stands for a log beyond the
buffer size, for which this model does not say how much has been passed on. -/
def reachedOutput (log : List Record) : Option (List Char) :=
  if logSizeBound log ≤ writerBufferSize then some [] else none

/-! # Theorems -/

/-! ## Lemmas on maps -/

theorem mapGet_mapSet {κ ν : Type} [DecidableEq κ] (m : List (κ × ν)) (k : κ) (v : ν) (k1 : κ) :
    mapGet (mapSet m k v) k1 = if k = k1 then some v else mapGet m k1 := by
  induction m with
  | nil => simp [mapSet, mapGet]
  | cons e t ih =>
    obtain ⟨k0, v0⟩ := e
    by_cases h : k0 = k
    · subst h
      by_cases h1 : k0 = k1 <;> simp [mapSet, mapGet, h1]
    · by_cases h1 : k0 = k1
      · subst h1
        have h2 : ¬ k = k0 := fun e => h e.symm
        simp [mapSet, mapGet, h, h2]
      · simp [mapSet, mapGet, h, h1, ih]

theorem mapGet_isSome_iff {κ ν : Type} [DecidableEq κ] (m : List (κ × ν)) (k : κ) :
    (mapGet m k).isSome = true ↔ k ∈ m.map Prod.fst := by
  induction m with
  | nil => simp [mapGet]
  | cons e t ih =>
    obtain ⟨k0, v0⟩ := e
    by_cases h : k0 = k
    · simp [mapGet, h]
    · have h2 : ¬ k = k0 := fun e => h e.symm
      simp [mapGet, h, h2, ih]

theorem mapSet_mem {κ ν : Type} [DecidableEq κ] (m : List (κ × ν)) (k : κ) (v : ν) (e : κ × ν) :
    e ∈ mapSet m k v → e = (k, v) ∨ e ∈ m := by
  induction m with
  | nil => simp [mapSet]
  | cons e0 t ih =>
    obtain ⟨k0, v0⟩ := e0
    by_cases h : k0 = k
    · simp only [mapSet, h, if_true, List.mem_cons]
      rintro (h1 | h1)
      · exact Or.inl h1
      · exact Or.inr (Or.inr h1)
    · simp only [mapSet, h, if_false, List.mem_cons]
      rintro (h1 | h1)
      · exact Or.inr (Or.inl h1)
      · rcases ih h1 with h2 | h2
        · exact Or.inl h2
        · exact Or.inr (Or.inr h2)

theorem inlinePatterns_literal {Re : Type} (W : World Re) (ic : Bool) (P : List String)
    (m : PatternsMap Re) :
    ∃ m1, inlinePatterns W ic false m P = .ok m1 ∧
      ∀ k, (mapGet m1 k).isSome = true ↔
        ((mapGet m k).isSome = true ∨ ∃ p ∈ P, literalKey W ic p = k) := by
  induction P generalizing m with
  | nil => exact ⟨m, by simp [inlinePatterns], by simp⟩
  | cons p rest ih =>
    cases ic with
    | false =>
      obtain ⟨m1, h1, h2⟩ := ih (mapSet m p none)
      refine ⟨m1, by simpa [inlinePatterns] using h1, ?_⟩
      intro k
      rw [h2 k, mapGet_mapSet]
      by_cases hk : p = k
      · simp [hk, literalKey]
      · have hk2 : ¬ k = p := fun e => hk e.symm
        simp [hk, hk2, literalKey]
    | true =>
      obtain ⟨m1, h1, h2⟩ := ih (mapSet m (W.toLower p) none)
      refine ⟨m1, by simpa [inlinePatterns] using h1, ?_⟩
      intro k
      rw [h2 k, mapGet_mapSet]
      by_cases hk : W.toLower p = k
      · simp [hk, literalKey]
      · have hk2 : ¬ k = W.toLower p := fun e => hk e.symm
        simp [hk, hk2, literalKey]

/-! ## One data record -/

theorem list_length_one_set (l : List String) (v : String) (h : l.length = 1) :
    l.set 0 v = [v] := by
  match l, h with
  | [a], _ => rfl

theorem fillItems_single (r : Record) (f : Nat) (v : String) (items : List String)
    (hf : 1 ≤ f) (hv : r.get? (f - 1) = some v) (hitems : items.length = 1) :
    fillItems r 0 [(f : Int)] items = .ok [v] := by
  have h2 : ¬ ((f : Int) - 1 < 0) := by omega
  have h3 : ((f : Int) - 1).toNat = f - 1 := by omega
  rw [fillItems]
  simp only [h2, if_false, h3, hv, hitems, Nat.lt_one_iff, if_true]
  rw [fillItems, list_length_one_set items v hitems]

theorem processRecord_data {Re : Type} (W : World Re) (cfg : Config) (pm : PatternsMap Re)
    (st : St) (r : Record) (f : Nat) (v : String)
    (hhdr : st.parseHeaderRow = false) (hfields : st.fields = [(f : Int)])
    (hf : 1 ≤ f) (hv : r.get? (f - 1) = some v)
    (hitems : st.checkFields = true ∨ st.items.length = 1) :
    processRecord W cfg pm st r = decide_and_write W cfg pm st r v := by
  obtain ⟨fields, out, warns, phr, cf, items⟩ := st
  simp only at hhdr hfields hitems
  subst hhdr hfields
  have hlen : f - 1 < r.length := by
    by_contra hc
    rw [List.get?_eq_none.mpr (by omega)] at hv
    cases hv
  have h1 : ¬ ((f : Int) > (r.length : Int)) := by omega
  cases cf with
  | true =>
    have hfill := fillItems_single r f v [""] hf hv rfl
    simp only [processRecord, validateFields, checkFieldsLoop, h1, decide_and_write, afterData,
      matchRecord]
    simp [hfill]
  | false =>
    simp at hitems
    have hfill := fillItems_single r f v items hf hv hitems
    simp only [processRecord, validateFields, decide_and_write, afterData, matchRecord]
    simp [hfill]

theorem isHit_literal {Re : Type} (W : World Re) (cfg : Config) (pm : PatternsMap Re)
    (v : String) (hre : cfg.useRegexp = false) :
    isHit W cfg pm v = .ok (mapGet pm (literalKey W cfg.ignoreCase v)).isSome := by
  unfold isHit literalKey
  simp only [hre, Bool.false_eq_true, if_false]
  cases mapGet pm (if cfg.ignoreCase = true then W.toLower v else v) <;> rfl

theorem decide_and_write_out {Re : Type} (W : World Re) (cfg : Config) (pm : PatternsMap Re)
    (st : St) (r : Record) (v : String) (hit : Bool) (h : isHit W cfg pm v = .ok hit) :
    (decide_and_write W cfg pm st r v).1.out =
      if keep cfg.invert hit then st.out ++ [r] else st.out := by
  unfold decide_and_write
  rw [h]
  by_cases hk : keep cfg.invert hit = true
  · simp only [hk, if_true]
    cases W.writeErr st.out r <;> rfl
  · simp only [hk, if_false]
    rfl

theorem buildPatterns_literal {Re : Type} (W : World Re) (cfg : Config)
    (hre : cfg.useRegexp = false) (hfile : cfg.patternFile = "") :
    ∃ pm, buildPatterns W cfg = .ok pm ∧
      ∀ k, (mapGet pm k).isSome = true ↔ ∃ p ∈ cfg.patterns, literalKey W cfg.ignoreCase p = k := by
  obtain ⟨m1, h1, h2⟩ := inlinePatterns_literal W cfg.ignoreCase cfg.patterns ([] : PatternsMap Re)
  refine ⟨m1, ?_, ?_⟩
  · simp [buildPatterns, hre, hfile, h1]
  · intro k
    rw [h2 k]
    simp [mapGet]

/-- C1. In literal mode with ignore-case off, a data record `r` whose key
field `f` (1-based, `f ≤ |r|`) has the value `v` is handed to the writer, when
invert is off, exactly when `v` is one of the patterns, and when invert is on,
exactly when `v` is none of the patterns; otherwise the output is unchanged. -/
theorem literal_match_decides_output {Re : Type} (W : World Re) (cfg : Config) (st : St)
    (r : Record) (f : Nat) (v : String)
    (hre : cfg.useRegexp = false) (hic : cfg.ignoreCase = false) (hfile : cfg.patternFile = "")
    (hhdr : st.parseHeaderRow = false) (hfields : st.fields = [(f : Int)])
    (hf : 1 ≤ f) (hv : r.get? (f - 1) = some v)
    (hitems : st.checkFields = true ∨ st.items.length = 1) :
    ∃ pm, buildPatterns W cfg = .ok pm ∧
      (cfg.invert = false →
        ((processRecord W cfg pm st r).1.out = st.out ++ [r] ↔ v ∈ cfg.patterns) ∧
        ((processRecord W cfg pm st r).1.out = st.out ↔ v ∉ cfg.patterns)) ∧
      (cfg.invert = true →
        ((processRecord W cfg pm st r).1.out = st.out ++ [r] ↔ v ∉ cfg.patterns) ∧
        ((processRecord W cfg pm st r).1.out = st.out ↔ v ∈ cfg.patterns)) := by
  obtain ⟨pm, hpm, hkeys⟩ := buildPatterns_literal W cfg hre hfile
  refine ⟨pm, hpm, ?_⟩
  have hstep := processRecord_data W cfg pm st r f v hhdr hfields hf hv hitems
  have hhit := isHit_literal W cfg pm v hre
  have hout := decide_and_write_out W cfg pm st r v _ hhit
  rw [← hstep] at hout
  have hmem : (mapGet pm (literalKey W cfg.ignoreCase v)).isSome = true ↔ v ∈ cfg.patterns := by
    rw [hkeys]
    simp [literalKey, hic]
  rw [hout]
  by_cases hin : v ∈ cfg.patterns
  · have h1 := hmem.mpr hin
    constructor <;> intro hinv <;> simp [keep, hinv, h1, hin]
  · have h1 : (mapGet pm (literalKey W cfg.ignoreCase v)).isSome = false := by
      cases hc : (mapGet pm (literalKey W cfg.ignoreCase v)).isSome
      · rfl
      · exact absurd (hmem.mp hc) hin
    constructor <;> intro hinv <;> simp [keep, hinv, h1, hin]

/-! ## Regular-expression mode -/

theorem mem_of_mapGet {κ ν : Type} [DecidableEq κ] (m : List (κ × ν)) (k : κ) (x : ν)
    (h : mapGet m k = some x) : (k, x) ∈ m := by
  induction m with
  | nil => simp [mapGet] at h
  | cons e t ih =>
    obtain ⟨k0, v0⟩ := e
    by_cases hk : k0 = k
    · simp only [mapGet, hk, if_true, Option.some.injEq] at h
      simp [hk, h]
    · simp only [mapGet, hk, if_false] at h
      exact List.mem_cons_of_mem _ (ih h)

theorem allCompiled_mapSet {Re : Type} (m : PatternsMap Re) (k : String) (re : Re)
    (h : allCompiled m) : allCompiled (mapSet m k (some re)) := by
  intro e he
  rcases mapSet_mem m k (some re) e he with h1 | h1
  · exact ⟨re, by rw [h1]⟩
  · exact h e h1

theorem inlinePatterns_allCompiled {Re : Type} (W : World Re) (ic : Bool) (P : List String)
    (m m1 : PatternsMap Re) (h : inlinePatterns W ic true m P = .ok m1)
    (hm : allCompiled m) : allCompiled m1 := by
  induction P generalizing m with
  | nil =>
    simp only [inlinePatterns, Except.ok.injEq] at h
    exact h ▸ hm
  | cons p rest ih =>
    simp only [inlinePatterns, if_true] at h
    cases hc : W.compile (if ic = true then "(?i)" ++ p else p) with
    | error e => simp [hc] at h
    | ok re =>
      simp only [hc] at h
      exact ih _ h (allCompiled_mapSet m p re hm)

theorem inlinePatterns_regexp {Re : Type} (W : World Re) (ic : Bool) (P : List String)
    (m : PatternsMap Re)
    (hall : ∀ p ∈ P, ∃ re, W.compile (regexpSource ic p) = .ok re) :
    ∃ m1, inlinePatterns W ic true m P = .ok m1 ∧
      (∀ e ∈ m1, e ∈ m ∨ ∃ p ∈ P, ∃ re, W.compile (regexpSource ic p) = .ok re ∧
        e = (p, some re)) ∧
      (∀ k, (k ∈ P → ∃ re, W.compile (regexpSource ic k) = .ok re ∧
          mapGet m1 k = some (some re)) ∧
        (k ∉ P → mapGet m1 k = mapGet m k)) := by
  induction P generalizing m with
  | nil => exact ⟨m, by simp [inlinePatterns], fun e he => Or.inl he, by simp⟩
  | cons p rest ih =>
    obtain ⟨re, hre⟩ := hall p (List.mem_cons_self _ _)
    obtain ⟨m1, h1, h2, h3⟩ := ih (mapSet m p (some re))
      (fun q hq => hall q (List.mem_cons_of_mem _ hq))
    have hre2 : W.compile (if ic = true then "(?i)" ++ p else p) = .ok re := hre
    refine ⟨m1, ?_, ?_, ?_⟩
    · simp only [inlinePatterns, if_true, hre2]
      exact h1
    · intro e he
      rcases h2 e he with h4 | ⟨q, hq, re1, hc, heq⟩
      · rcases mapSet_mem m p (some re) e h4 with h5 | h5
        · exact Or.inr ⟨p, List.mem_cons_self _ _, re, hre, h5⟩
        · exact Or.inl h5
      · exact Or.inr ⟨q, List.mem_cons_of_mem _ hq, re1, hc, heq⟩
    · intro k
      constructor
      · intro hk
        by_cases hkr : k ∈ rest
        · exact (h3 k).1 hkr
        · have hkp : k = p := by
            rcases List.mem_cons.mp hk with h | h
            · exact h
            · exact absurd h hkr
          subst hkp
          refine ⟨re, hre, ?_⟩
          rw [(h3 k).2 hkr, mapGet_mapSet]
          simp
      · intro hk
        have hkr : k ∉ rest := fun h => hk (List.mem_cons_of_mem _ h)
        have hkp : ¬ p = k := fun h => hk (h ▸ List.mem_cons_self _ _)
        rw [(h3 k).2 hkr, mapGet_mapSet]
        simp [hkp]

theorem regexpLoop_allCompiled {Re : Type} (W : World Re) (v : String) (m : PatternsMap Re)
    (hm : allCompiled m) :
    ∃ hit, regexpLoop W v m = .ok hit ∧
      (hit = true ↔ ∃ e ∈ m, ∃ re, e.2 = some re ∧ W.matchString re v = true) := by
  induction m with
  | nil => exact ⟨false, rfl, by simp⟩
  | cons e t ih =>
    obtain ⟨k, x⟩ := e
    obtain ⟨re, hx⟩ := hm (k, x) (List.mem_cons_self _ _)
    simp only at hx
    subst hx
    obtain ⟨hit, h1, h2⟩ := ih (fun e he => hm e (List.mem_cons_of_mem _ he))
    by_cases hmatch : W.matchString re v = true
    · refine ⟨true, by simp [regexpLoop, hmatch], ?_⟩
      simp only [true_iff]
      exact ⟨(k, some re), List.mem_cons_self _ _, re, rfl, hmatch⟩
    · refine ⟨hit, by simp [regexpLoop, hmatch, h1], ?_⟩
      rw [h2]
      constructor
      · rintro ⟨e, he, re1, h3, h4⟩
        exact ⟨e, List.mem_cons_of_mem _ he, re1, h3, h4⟩
      · rintro ⟨e, he, re1, h3, h4⟩
        rcases List.mem_cons.mp he with h5 | h5
        · subst h5
          simp only [Option.some.injEq] at h3
          subst h3
          exact absurd h4 hmatch
        · exact ⟨e, h5, re1, h3, h4⟩

/-- C2. In regexp mode, when every supplied pattern compiles, the pattern map
is built and, for a data record `r` whose key field has the value `v`, `hit` is
computed without error and is true exactly when `v` is matched by the compiled
expression of at least one supplied pattern; the record is handed to the writer
according to that `hit`. -/
theorem regexp_hit_is_union {Re : Type} (W : World Re) (cfg : Config) (st : St)
    (r : Record) (f : Nat) (v : String)
    (hre : cfg.useRegexp = true) (hfile : cfg.patternFile = "")
    (hall : ∀ p ∈ cfg.patterns, ∃ re, W.compile (regexpSource cfg.ignoreCase p) = .ok re)
    (hhdr : st.parseHeaderRow = false) (hfields : st.fields = [(f : Int)])
    (hf : 1 ≤ f) (hv : r.get? (f - 1) = some v)
    (hitems : st.checkFields = true ∨ st.items.length = 1) :
    ∃ pm hit, buildPatterns W cfg = .ok pm ∧ isHit W cfg pm v = .ok hit ∧
      (hit = true ↔ ∃ p ∈ cfg.patterns, ∃ re,
        W.compile (regexpSource cfg.ignoreCase p) = .ok re ∧ W.matchString re v = true) ∧
      (processRecord W cfg pm st r).1.out =
        if keep cfg.invert hit then st.out ++ [r] else st.out := by
  obtain ⟨pm, h1, h2, h3⟩ := inlinePatterns_regexp W cfg.ignoreCase cfg.patterns [] hall
  have hcomp : allCompiled pm := by
    intro e he
    rcases h2 e he with h4 | ⟨p, _, re, _, heq⟩
    · simp at h4
    · exact ⟨re, by rw [heq]⟩
  obtain ⟨hit, h5, h6⟩ := regexpLoop_allCompiled W v pm hcomp
  have hhit : isHit W cfg pm v = .ok hit := by simp [isHit, hre, h5]
  refine ⟨pm, hit, by simp [buildPatterns, hre, hfile, h1], hhit, ?_, ?_⟩
  · rw [h6]
    constructor
    · rintro ⟨e, he, re, h7, h8⟩
      rcases h2 e he with h4 | ⟨p, hp, re1, hc, heq⟩
      · simp at h4
      · subst heq
        simp only [Option.some.injEq] at h7
        subst h7
        exact ⟨p, hp, re1, hc, h8⟩
    · rintro ⟨p, hp, re, hc, h8⟩
      obtain ⟨re1, hc1, hget⟩ := (h3 p).1 hp
      rw [hc] at hc1
      simp only [Except.ok.injEq] at hc1
      subst hc1
      exact ⟨(p, some re), mem_of_mapGet pm p (some re) hget, re, rfl, h8⟩
  · rw [processRecord_data W cfg pm st r f v hhdr hfields hf hv hitems]
    exact decide_and_write_out W cfg pm st r v hit hhit

/-- C3. In literal mode with ignore-case on, the pattern map is built and, for
a data record `r` whose key field has the value `v`, `hit` is true exactly when
the lower-case fold of `v` equals the lower-case fold of some supplied pattern;
the record is handed to the writer according to that `hit`. Whenever the fold
identifies "Foo" and "foo", the value "Foo" is a hit for the single pattern
"foo" and the value "foo" is a hit for the single pattern "Foo". -/
theorem literal_fold_hit {Re : Type} (W : World Re) (cfg : Config) (st : St)
    (r : Record) (f : Nat) (v : String)
    (hre : cfg.useRegexp = false) (hic : cfg.ignoreCase = true) (hfile : cfg.patternFile = "")
    (hhdr : st.parseHeaderRow = false) (hfields : st.fields = [(f : Int)])
    (hf : 1 ≤ f) (hv : r.get? (f - 1) = some v)
    (hitems : st.checkFields = true ∨ st.items.length = 1) :
    ∃ pm hit, buildPatterns W cfg = .ok pm ∧ isHit W cfg pm v = .ok hit ∧
      (hit = true ↔ ∃ p ∈ cfg.patterns, W.toLower p = W.toLower v) ∧
      (processRecord W cfg pm st r).1.out =
        (if keep cfg.invert hit then st.out ++ [r] else st.out) ∧
      (W.toLower "Foo" = W.toLower "foo" →
        (cfg.patterns = ["foo"] → isHit W cfg pm "Foo" = .ok true) ∧
        (cfg.patterns = ["Foo"] → isHit W cfg pm "foo" = .ok true)) := by
  obtain ⟨pm, hpm, hkeys⟩ := buildPatterns_literal W cfg hre hfile
  have hhit := fun x => isHit_literal W cfg pm x hre
  have hchar : ∀ x, (mapGet pm (literalKey W cfg.ignoreCase x)).isSome = true ↔
      ∃ p ∈ cfg.patterns, W.toLower p = W.toLower x := by
    intro x
    rw [hkeys]
    simp [literalKey, hic]
  refine ⟨pm, _, hpm, hhit v, hchar v, ?_, ?_⟩
  · rw [processRecord_data W cfg pm st r f v hhdr hfields hf hv hitems]
    exact decide_and_write_out W cfg pm st r v _ (hhit v)
  · intro hfold
    constructor
    · intro hP
      rw [hhit "Foo", (hchar "Foo").mpr ⟨"foo", by simp [hP], hfold.symm⟩]
    · intro hP
      rw [hhit "foo", (hchar "foo").mpr ⟨"Foo", by simp [hP], hfold⟩]

/-! ## Invert -/

theorem filePatternsData_eq {Re : Type} (W : World Re) (ic re : Bool) (P : List String)
    (m : PatternsMap Re) :
    filePatternsData W ic re m P = inlinePatterns W ic re m P := by
  induction P generalizing m with
  | nil => rfl
  | cons p rest ih =>
    unfold filePatternsData inlinePatterns
    simp only [ih]

theorem filePatternsChunks_allCompiled {Re : Type} (W : World Re) (ic : Bool)
    (cs : List (Chunk String)) (m m1 : PatternsMap Re)
    (h : filePatternsChunks W ic true m cs = .ok m1) (hm : allCompiled m) :
    allCompiled m1 := by
  induction cs generalizing m with
  | nil =>
    simp only [filePatternsChunks, Except.ok.injEq] at h
    exact h ▸ hm
  | cons c rest ih =>
    unfold filePatternsChunks at h
    cases hE : c.Err with
    | some e => simp [hE] at h
    | none =>
      simp only [hE] at h
      cases hD : filePatternsData W ic true m c.Data with
      | error e => simp [hD] at h
      | ok m2 =>
        simp only [hD] at h
        rw [filePatternsData_eq] at hD
        exact ih m2 h (inlinePatterns_allCompiled W ic c.Data m m2 hD hm)

theorem buildPatterns_allCompiled {Re : Type} (W : World Re) (cfg : Config)
    (pm : PatternsMap Re) (hre : cfg.useRegexp = true) (h : buildPatterns W cfg = .ok pm) :
    allCompiled pm := by
  unfold buildPatterns at h
  rw [hre] at h
  cases hI : inlinePatterns W cfg.ignoreCase true [] cfg.patterns with
  | error e => simp [hI] at h
  | ok m =>
    have hm : allCompiled m :=
      inlinePatterns_allCompiled W cfg.ignoreCase cfg.patterns [] m hI (by intro e he; simp at he)
    simp only [hI] at h
    by_cases hf : cfg.patternFile = ""
    · simp only [hf, ne_eq, not_true_eq_false, if_false, Except.ok.injEq] at h
      exact h ▸ hm
    · simp only [ne_eq, hf, not_false_eq_true, if_true] at h
      cases hR : W.patternReader cfg.patternFile with
      | error e => simp [hR] at h
      | ok chunks =>
        simp only [hR] at h
        exact filePatternsChunks_allCompiled W cfg.ignoreCase chunks m pm h hm

theorem isHit_ok_of_build {Re : Type} (W : World Re) (cfg : Config) (pm : PatternsMap Re)
    (v : String) (h : buildPatterns W cfg = .ok pm) : ∃ hit, isHit W cfg pm v = .ok hit := by
  cases hre : cfg.useRegexp with
  | false => exact ⟨_, isHit_literal W cfg pm v hre⟩
  | true =>
    obtain ⟨hit, h1, _⟩ :=
      regexpLoop_allCompiled W v pm (buildPatterns_allCompiled W cfg pm hre h)
    exact ⟨hit, by simp [isHit, hre, h1]⟩

/-- C4. The keep decision under invert is the negation of the keep decision
without invert, and for any pattern map built by the command, any mode and any
data record `r` with a valid key field, exactly one of the two runs that differ
only in the invert flag hands `r` to the writer (the states of the two runs at
`r` may differ in the output written so far). -/
theorem invert_is_complement {Re : Type} (W : World Re) (cfg : Config) (pm : PatternsMap Re)
    (stT stF : St) (r : Record) (f : Nat) (v : String)
    (hpm : buildPatterns W cfg = .ok pm)
    (hhdrT : stT.parseHeaderRow = false) (hfieldsT : stT.fields = [(f : Int)])
    (hitemsT : stT.checkFields = true ∨ stT.items.length = 1)
    (hhdrF : stF.parseHeaderRow = false) (hfieldsF : stF.fields = [(f : Int)])
    (hitemsF : stF.checkFields = true ∨ stF.items.length = 1)
    (hf : 1 ≤ f) (hv : r.get? (f - 1) = some v) :
    (∀ hit, keep true hit = !keep false hit) ∧
    (((processRecord W (withInvert cfg true) pm stT r).1.out = stT.out ++ [r] ∧
        (processRecord W (withInvert cfg false) pm stF r).1.out = stF.out) ∨
      ((processRecord W (withInvert cfg true) pm stT r).1.out = stT.out ∧
        (processRecord W (withInvert cfg false) pm stF r).1.out = stF.out ++ [r])) := by
  refine ⟨by intro hit; cases hit <;> rfl, ?_⟩
  obtain ⟨hit, hhit⟩ := isHit_ok_of_build W cfg pm v hpm
  have hT : isHit W (withInvert cfg true) pm v = .ok hit := hhit
  have hF : isHit W (withInvert cfg false) pm v = .ok hit := hhit
  rw [processRecord_data W _ pm stT r f v hhdrT hfieldsT hf hv hitemsT,
    processRecord_data W _ pm stF r f v hhdrF hfieldsF hf hv hitemsF,
    decide_and_write_out W _ pm stT r v hit hT, decide_and_write_out W _ pm stF r v hit hF]
  cases hit
  · left
    simp [withInvert, keep]
  · right
    simp [withInvert, keep]

/-! ## Streams -/

theorem recordsLoop_append {Re : Type} (W : World Re) (cfg : Config) (pm : PatternsMap Re)
    (st : St) (a b : List Record) :
    recordsLoop W cfg pm st (a ++ b) =
      match recordsLoop W cfg pm st a with
      | (st1, some e) => (st1, some e)
      | (st1, none) => recordsLoop W cfg pm st1 b := by
  induction a generalizing st with
  | nil => simp [recordsLoop]
  | cons r rest ih =>
    simp only [List.cons_append, recordsLoop]
    rcases hstep : processRecord W cfg pm st r with ⟨st1, _ | e⟩
    · exact ih st1
    · simp

theorem chunksLoop_state {Re : Type} (W : World Re) (cfg : Config) (pm : PatternsMap Re)
    (st : St) (cs : List (Chunk Record)) :
    (chunksLoop W cfg pm st cs).1 = (recordsLoop W cfg pm st (readable cs)).1 := by
  induction cs generalizing st with
  | nil => simp [chunksLoop, readable, recordsLoop]
  | cons c rest ih =>
    unfold chunksLoop readable
    cases hE : c.Err with
    | some e => simp [recordsLoop]
    | none =>
      simp only [recordsLoop_append]
      rcases hl : recordsLoop W cfg pm st c.Data with ⟨st1, _ | e⟩
      · simp only [ih]
      · simp

theorem validateFields_keeps (st : St) (r : Record) :
    (validateFields st r).1.out = st.out ∧
      (validateFields st r).1.parseHeaderRow = st.parseHeaderRow := by
  unfold validateFields
  by_cases hc : st.checkFields = true
  · simp only [hc, if_true]
    split <;> simp
  · simp [hc]

theorem processRecord_data_out {Re : Type} (W : World Re) (cfg : Config)
    (pm : PatternsMap Re) (st : St) (r : Record) (hhdr : st.parseHeaderRow = false) :
    (processRecord W cfg pm st r).1.parseHeaderRow = false ∧
      ((processRecord W cfg pm st r).1.out = st.out ∨
        (processRecord W cfg pm st r).1.out = st.out ++ [r]) := by
  have hval := validateFields_keeps st r
  rw [hhdr] at hval
  unfold processRecord matchRecord
  simp only [hhdr, Bool.false_eq_true, if_false]
  rcases hv : validateFields st r with ⟨st1, _ | e⟩
  · rw [hv] at hval
    simp only at hval
    simp only
    cases hfill : fillItems r 0 st1.fields st1.items with
    | error e => simp [hval]
    | ok items =>
      simp only
      cases items with
      | nil => simp [hval]
      | cons target tl =>
        simp only
        cases hh : isHit W cfg pm target with
        | error e => simp [hval]
        | ok hit =>
          simp only
          by_cases hk : keep cfg.invert hit = true
          · simp only [hk, if_true]
            cases W.writeErr st1.out r <;> simp [hval]
          · simp [hk, hval]
  · rw [hv] at hval
    simp only at hval
    simp [hval]

theorem recordsLoop_data_out {Re : Type} (W : World Re) (cfg : Config)
    (pm : PatternsMap Re) (st : St) (rs : List Record) (hhdr : st.parseHeaderRow = false) :
    ∃ kept, kept.Sublist rs ∧ (recordsLoop W cfg pm st rs).1.out = st.out ++ kept := by
  induction rs generalizing st with
  | nil => exact ⟨[], List.Sublist.refl _, by simp [recordsLoop]⟩
  | cons r rest ih =>
    obtain ⟨h1, h2⟩ := processRecord_data_out W cfg pm st r hhdr
    unfold recordsLoop
    rcases hstep : processRecord W cfg pm st r with ⟨st1, _ | e⟩
    · rw [hstep] at h1 h2
      simp only at h1 h2
      obtain ⟨kept, hk1, hk2⟩ := ih st1 h1
      simp only
      rcases h2 with h2 | h2
      · exact ⟨kept, List.Sublist.cons _ hk1, by rw [hk2, h2]⟩
      · exact ⟨r :: kept, List.Sublist.cons₂ _ hk1, by rw [hk2, h2]; simp⟩
    · rw [hstep] at h2
      simp only at h2 ⊢
      rcases h2 with h2 | h2
      · exact ⟨[], List.nil_sublist _, by rw [h2]; simp⟩
      · exact ⟨[r], by simp, h2⟩

theorem resolveHeader_keeps (cfg : Config) (st : St) (h : Record) :
    (resolveHeader cfg st h).out = st.out ∧
      (resolveHeader cfg st h).parseHeaderRow = st.parseHeaderRow ∧
      (resolveHeader cfg st h).checkFields = st.checkFields ∧
      (resolveHeader cfg st h).items = st.items := by
  unfold resolveHeader
  simp only
  split <;> simp

theorem parseHeader_out {Re : Type} (W : World Re) (cfg : Config) (st : St) (h : Record) :
    (parseHeader W cfg st h).1.out = st.out ++ [h] := by
  unfold parseHeader
  simp only
  split <;> simp [(resolveHeader_keeps cfg st h).1]

theorem parseHeader_ok {Re : Type} (W : World Re) (cfg : Config) (st st1 : St) (h : Record)
    (hok : parseHeader W cfg st h = (st1, none)) :
    st1.parseHeaderRow = false ∧ st1.checkFields = st.checkFields ∧
      st1.fields = (resolveHeader cfg st h).fields := by
  unfold parseHeader at hok
  simp only at hok
  split at hok
  · simp at hok
  · simp only [Prod.mk.injEq, and_true] at hok
    subst hok
    simp [(resolveHeader_keeps cfg st h).2.2.1]

/-- C7. For a stream processed with header parsing enabled whose first record
is `h`: the output of the stream is the output so far, then `h` itself, then
some of the remaining records in their order, whatever the pattern map and the
flags are; and the step taken on `h` is the same for every pattern map, match
mode, ignore-case flag and invert flag. -/
theorem header_passthrough {Re : Type} (W : World Re) (cfg : Config) (pm : PatternsMap Re)
    (st : St) (cs : List (Chunk Record)) (h : Record) (rest : List Record)
    (hhdr : cfg.needParseHeaderRow = true) (hrec : readable cs = h :: rest) :
    (∃ kept, kept.Sublist rest ∧
      (chunksLoop W cfg pm (fileInit cfg st) cs).1.out = st.out ++ h :: kept) ∧
    (∀ (cfg2 : Config) (pm2 : PatternsMap Re), cfg2.colnames = cfg.colnames →
      processRecord W cfg2 pm2 (fileInit cfg st) h =
        processRecord W cfg pm (fileInit cfg st) h) := by
  constructor
  · rw [chunksLoop_state, hrec]
    unfold recordsLoop
    have hstep : processRecord W cfg pm (fileInit cfg st) h =
        parseHeader W cfg (fileInit cfg st) h := by
      simp [processRecord, fileInit, hhdr]
    rw [hstep]
    have hout := parseHeader_out W cfg (fileInit cfg st) h
    rcases hp : parseHeader W cfg (fileInit cfg st) h with ⟨st1, _ | e⟩
    · rw [hp] at hout
      simp only at hout ⊢
      obtain ⟨kept, hk1, hk2⟩ := recordsLoop_data_out W cfg pm st1 rest
        (parseHeader_ok W cfg _ st1 h hp).1
      refine ⟨kept, hk1, ?_⟩
      rw [hk2, hout]
      simp [fileInit]
    · rw [hp] at hout
      simp only at hout ⊢
      exact ⟨[], List.nil_sublist _, by rw [hout]; simp [fileInit]⟩
  · intro cfg2 pm2 hcol
    simp [processRecord, fileInit, hhdr, parseHeader, resolveHeader, hcol]

/-! ## The output of a stream as a filter -/

theorem fillItems_later (r : Record) (i : Nat) (fs : List Int) (items items1 : List String)
    (hi : 0 < i) (h : fillItems r i fs items = .ok items1) :
    items1.length = items.length ∧ items1.head? = items.head? := by
  induction fs generalizing i items with
  | nil =>
    simp only [fillItems, Except.ok.injEq] at h
    subst h
    exact ⟨rfl, rfl⟩
  | cons f rest ih =>
    rw [fillItems] at h
    split at h
    · simp at h
    · split at h
      · simp at h
      · split at h
        · obtain ⟨h1, h2⟩ := ih (i + 1) _ (Nat.succ_pos _) h
          rw [h1, h2]
          refine ⟨by simp, ?_⟩
          cases items with
          | nil => rfl
          | cons a t =>
            cases i with
            | zero => omega
            | succ j => rfl
        · simp at h

theorem fillItems_first (r : Record) (f : Int) (rest : List Int) (items items1 : List String)
    (h : fillItems r 0 (f :: rest) items = .ok items1) :
    ¬ (f - 1 < 0) ∧ ∃ v, r.get? (f - 1).toNat = some v ∧ items1.head? = some v ∧
      items1.length = items.length := by
  rw [fillItems] at h
  split at h
  · simp at h
  · rename_i hf
    refine ⟨hf, ?_⟩
    split at h
    · simp at h
    · rename_i v hv
      split at h
      · rename_i hlen
        obtain ⟨h1, h2⟩ := fillItems_later r 1 rest _ items1 Nat.one_pos h
        refine ⟨v, hv, ?_, ?_⟩
        · rw [h2]
          cases items with
          | nil => simp at hlen
          | cons a t => rfl
        · rw [h1]
          simp
      · simp at h

theorem matchRecord_ok {Re : Type} (W : World Re) (cfg : Config) (pm : PatternsMap Re)
    (sv st1 : St) (r : Record) (hlen : sv.items.length = sv.fields.length)
    (hok : matchRecord W cfg pm sv r = (st1, none)) :
    st1.fields = sv.fields ∧ st1.parseHeaderRow = sv.parseHeaderRow ∧
      st1.checkFields = sv.checkFields ∧ st1.items.length = st1.fields.length ∧
      st1.out = sv.out ++ (if keeps W cfg pm sv.fields r then [r] else []) := by
  unfold matchRecord at hok
  cases hfill : fillItems r 0 sv.fields sv.items with
  | error e => simp [hfill] at hok
  | ok items =>
    simp only [hfill] at hok
    cases hfs : sv.fields with
    | nil =>
      rw [hfs] at hfill hlen
      simp only [fillItems, Except.ok.injEq] at hfill
      subst hfill
      have hnil : sv.items = [] := List.length_eq_zero.mp hlen
      rw [hnil] at hok
      simp at hok
    | cons f rest =>
      rw [hfs] at hfill
      obtain ⟨hf, v, hv, hhead, hl⟩ := fillItems_first r f rest sv.items items hfill
      cases items with
      | nil => simp at hhead
      | cons target tl =>
        simp only [List.head?_cons, Option.some.injEq] at hhead
        subst hhead
        simp only at hok
        have hkeeps : keeps W cfg pm (f :: rest) r =
            match isHit W cfg pm target with
            | .ok hit => keep cfg.invert hit
            | .error _ => false := by
          simp only [keeps, hf, if_false, hv]
        rw [hkeeps]
        cases hh : isHit W cfg pm target with
        | error e => simp [hh] at hok
        | ok hit =>
          simp only [hh] at hok ⊢
          by_cases hk : keep cfg.invert hit = true
          · simp only [hk, if_true] at hok ⊢
            cases hw : W.writeErr sv.out r with
            | some e => simp [hw] at hok
            | none =>
              simp only [hw, Prod.mk.injEq, and_true] at hok
              subst hok
              simp only [List.length_cons] at hl
              rw [hfs, List.length_cons] at hlen
              simp [hfs]
              omega
          · have hk2 : keep cfg.invert hit = false := by simpa using hk
            simp only [hk2, Bool.false_eq_true, if_false, Prod.mk.injEq, and_true] at hok ⊢
            subst hok
            simp only [List.length_cons] at hl
            rw [hfs, List.length_cons] at hlen
            simp [hfs]
            omega

theorem validateFields_ok (st sv : St) (r : Record) (hok : validateFields st r = (sv, none)) :
    sv.parseHeaderRow = st.parseHeaderRow ∧ sv.checkFields = false ∧ sv.out = st.out ∧
      (st.checkFields = false → sv = st) ∧
      (st.checkFields = true → sv.items.length = sv.fields.length) := by
  unfold validateFields at hok
  by_cases hc : st.checkFields = true
  · simp only [hc, if_true] at hok
    split at hok
    · simp at hok
    · simp only [Prod.mk.injEq, and_true] at hok
      subst hok
      simp [hc]
  · simp only [hc, if_false, Prod.mk.injEq, and_true, Bool.false_eq_true] at hok
    subst hok
    simp at hc
    simp [hc]

theorem processRecord_ok {Re : Type} (W : World Re) (cfg : Config) (pm : PatternsMap Re)
    (st st1 : St) (r : Record) (hhdr : st.parseHeaderRow = false)
    (hinv : st.checkFields = false → st.items.length = st.fields.length)
    (hok : processRecord W cfg pm st r = (st1, none)) :
    st1.parseHeaderRow = false ∧ st1.checkFields = false ∧
      st1.items.length = st1.fields.length ∧
      (st.checkFields = false → st1.fields = st.fields) ∧
      st1.out = st.out ++ (if keeps W cfg pm st1.fields r then [r] else []) := by
  unfold processRecord at hok
  simp only [hhdr, Bool.false_eq_true, if_false] at hok
  rcases hv : validateFields st r with ⟨sv, _ | e⟩
  · simp only [hv] at hok
    obtain ⟨v1, v2, v3, v4, v5⟩ := validateFields_ok st sv r hv
    have hlen : sv.items.length = sv.fields.length := by
      cases hc : st.checkFields with
      | true => exact v5 hc
      | false => rw [v4 hc]; exact hinv hc
    obtain ⟨m1, m2, m3, m4, m5⟩ := matchRecord_ok W cfg pm sv st1 r hlen hok
    refine ⟨by rw [m2, v1, hhdr], by rw [m3, v2], m4, ?_, ?_⟩
    · intro hc
      rw [m1, v4 hc]
    · rw [m5, v3, m1]
  · simp [hv] at hok

theorem recordsLoop_validated {Re : Type} (W : World Re) (cfg : Config) (pm : PatternsMap Re)
    (st st1 : St) (rs : List Record) (hhdr : st.parseHeaderRow = false)
    (hcf : st.checkFields = false) (hlen : st.items.length = st.fields.length)
    (hok : recordsLoop W cfg pm st rs = (st1, none)) :
    st1.fields = st.fields ∧ st1.out = st.out ++ rs.filter (keeps W cfg pm st.fields) := by
  induction rs generalizing st with
  | nil =>
    simp only [recordsLoop, Prod.mk.injEq, and_true] at hok
    subst hok
    simp
  | cons r rest ih =>
    unfold recordsLoop at hok
    rcases hstep : processRecord W cfg pm st r with ⟨s2, _ | e⟩
    · simp only [hstep] at hok
      obtain ⟨p1, p2, p3, p4, p5⟩ := processRecord_ok W cfg pm st s2 r hhdr (fun _ => hlen) hstep
      obtain ⟨i1, i2⟩ := ih s2 p1 p2 p3 hok
      have hf := p4 hcf
      rw [hf] at i1 i2 p5
      refine ⟨i1, ?_⟩
      rw [i2, p5]
      by_cases hk : keeps W cfg pm st.fields r = true
      · simp [hk]
      · simp [hk]
    · simp [hstep] at hok

theorem recordsLoop_dataPhase {Re : Type} (W : World Re) (cfg : Config) (pm : PatternsMap Re)
    (st st1 : St) (rs : List Record) (hhdr : st.parseHeaderRow = false)
    (hcf : st.checkFields = true)
    (hok : recordsLoop W cfg pm st rs = (st1, none)) :
    st1.out = st.out ++ rs.filter (keeps W cfg pm st1.fields) := by
  cases rs with
  | nil =>
    simp only [recordsLoop, Prod.mk.injEq, and_true] at hok
    subst hok
    simp
  | cons r rest =>
    unfold recordsLoop at hok
    rcases hstep : processRecord W cfg pm st r with ⟨s2, _ | e⟩
    · simp only [hstep] at hok
      obtain ⟨p1, p2, p3, _, p5⟩ :=
        processRecord_ok W cfg pm st s2 r hhdr (fun h => by rw [hcf] at h; cases h) hstep
      obtain ⟨i1, i2⟩ := recordsLoop_validated W cfg pm s2 st1 rest p1 p2 p3 hok
      rw [i2, p5, i1]
      by_cases hk : keeps W cfg pm s2.fields r = true
      · simp [hk]
      · simp [hk]
    · simp [hstep] at hok

theorem chunksLoop_ok {Re : Type} (W : World Re) (cfg : Config) (pm : PatternsMap Re)
    (st st1 : St) (cs : List (Chunk Record))
    (hok : chunksLoop W cfg pm st cs = (st1, none)) :
    recordsLoop W cfg pm st (allRecords cs) = (st1, none) := by
  induction cs generalizing st with
  | nil => simpa [chunksLoop, allRecords, recordsLoop] using hok
  | cons c rest ih =>
    unfold chunksLoop at hok
    cases hE : c.Err with
    | some e => simp [hE] at hok
    | none =>
      simp only [hE] at hok
      rcases hl : recordsLoop W cfg pm st c.Data with ⟨s2, _ | e⟩
      · simp only [hl] at hok
        simp only [allRecords, recordsLoop_append, hl]
        exact ih s2 hok
      · simp [hl] at hok

/-- C8. When a stream is processed without error, its output is the output so
far, then the header row (if header parsing is on and the stream is not
empty), then exactly the data records that satisfy the keep predicate for the
validated field list, each whole and in input order. -/
theorem output_is_ordered_filter {Re : Type} (W : World Re) (cfg : Config)
    (pm : PatternsMap Re) (st st1 : St) (cs : List (Chunk Record))
    (hok : chunksLoop W cfg pm (fileInit cfg st) cs = (st1, none)) :
    st1.out = st.out ++ headerRows cfg (allRecords cs) ++
      (dataRows cfg (allRecords cs)).filter (keeps W cfg pm st1.fields) := by
  have hrec := chunksLoop_ok W cfg pm _ st1 cs hok
  cases hh : cfg.needParseHeaderRow with
  | false =>
    have h1 := recordsLoop_dataPhase W cfg pm (fileInit cfg st) st1 (allRecords cs)
      (by simp [fileInit, hh]) (by simp [fileInit]) hrec
    simpa [headerRows, dataRows, hh, fileInit] using h1
  | true =>
    cases hrs : allRecords cs with
    | nil =>
      rw [hrs] at hrec
      simp only [recordsLoop, Prod.mk.injEq, and_true] at hrec
      subst hrec
      simp [headerRows, dataRows, hh, fileInit]
    | cons h rest =>
      rw [hrs] at hrec
      unfold recordsLoop at hrec
      have hstep : processRecord W cfg pm (fileInit cfg st) h =
          parseHeader W cfg (fileInit cfg st) h := by
        simp [processRecord, fileInit, hh]
      rw [hstep] at hrec
      have hout := parseHeader_out W cfg (fileInit cfg st) h
      rcases hp : parseHeader W cfg (fileInit cfg st) h with ⟨s2, _ | e⟩
      · rw [hp] at hout
        simp only [hp] at hrec
        obtain ⟨q1, q2, _⟩ := parseHeader_ok W cfg _ s2 h hp
        have h1 := recordsLoop_dataPhase W cfg pm s2 st1 rest q1
          (by rw [q2]; simp [fileInit]) hrec
        rw [h1, hout]
        simp [headerRows, dataRows, hh, fileInit]
      · simp [hp] at hrec

/-! ## Field resolution -/

/-- C5 (the code at the failing input). With the key given by the name
`name` and the pattern `apple`, the file `second.csv` alone is matched on its
own `name` column (field 1) and its record is kept; processed after
`first.csv`, whose `name` column is field 2, its record is matched on field 2
and dropped. -/
theorem second_stream_reuses_first_index :
    Run (sampleWorld sampleFiles) (fruitConfig false false) ["second.csv"] =
      ⟨[["name", "id"], ["apple", "7"]], [], none⟩ ∧
    Run (sampleWorld sampleFiles) (fruitConfig false false) ["first.csv", "second.csv"] =
      ⟨[["id", "name"], ["1", "apple"], ["name", "id"]], [], none⟩ := by
  constructor <;> decide

theorem headerMapFrom_get (m : List (String × Int)) (i0 : Nat) (h : Record) (col : String) :
    (col ∉ h → mapGet (headerMapFrom m i0 h) col = mapGet m col) ∧
    (col ∈ h → ∃ i, h.get? i = some col ∧ (∀ j, i < j → h.get? j ≠ some col) ∧
      mapGet (headerMapFrom m i0 h) col = some (((i0 + i : Nat) : Int) + 1)) := by
  induction h generalizing m i0 with
  | nil =>
    constructor
    · intro _
      rfl
    · intro hmem
      simp at hmem
  | cons c rest ih =>
    obtain ⟨ih1, ih2⟩ := ih (mapSet m c ((i0 : Int) + 1)) (i0 + 1)
    constructor
    · intro hmem
      have hc : ¬ c = col := fun e => hmem (e ▸ List.mem_cons_self _ _)
      have hr : col ∉ rest := fun e => hmem (List.mem_cons_of_mem _ e)
      rw [headerMapFrom, ih1 hr, mapGet_mapSet]
      simp [hc]
    · intro hmem
      by_cases hr : col ∈ rest
      · obtain ⟨i, h1, h2, h3⟩ := ih2 hr
        refine ⟨i + 1, by simpa using h1, ?_, ?_⟩
        · intro j hj
          cases j with
          | zero => omega
          | succ k =>
            have := h2 k (by omega)
            simpa using this
        · rw [headerMapFrom, h3]
          congr 1
          push_cast
          ring
      · have hc : col = c := by
          rcases List.mem_cons.mp hmem with h | h
          · exact h
          · exact absurd h hr
        subst hc
        refine ⟨0, by simp, ?_, ?_⟩
        · intro j hj
          cases j with
          | zero => omega
          | succ k =>
            intro hget
            apply hr
            have hget2 : rest.get? k = some col := by simpa using hget
            exact List.get?_mem hget2
        · rw [headerMapFrom, ih1 hr, mapGet_mapSet]
          simp

/-- C6 (counterexample). For the header `name,id,name` and the key name
`name`, the first occurrence of the name is column 1, and the key is bound to
column 3. -/
theorem first_occurrence_not_bound :
    ["name", "id", "name"].indexOf "name" + 1 = 1 ∧
    (processRecord (sampleWorld sampleFiles) (fruitConfig false false) []
        (startState (fruitConfig false false)) ["name", "id", "name"]).1.fields = [3] ∧
    (processRecord (sampleWorld sampleFiles) (fruitConfig false false) []
        (startState (fruitConfig false false)) ["name", "id", "name"]).1.fields ≠ [1] := by
  decide

/-- C6 (amended). When the header row `h` contains the key column name,
resolution by name binds the key to the 1-based index of the last occurrence of
that name in `h`, and logs no warning. -/
theorem name_binds_to_last_occurrence {Re : Type} (W : World Re) (cfg : Config)
    (pm : PatternsMap Re) (st : St) (h : Record) (col : String)
    (hhdr : st.parseHeaderRow = true) (hfields : st.fields = [])
    (hcol : cfg.colnames = [col]) (hmem : col ∈ h) :
    ∃ i, h.get? i = some col ∧ (∀ j, i < j → h.get? j ≠ some col) ∧
      (processRecord W cfg pm st h).1.fields = [(i : Int) + 1] ∧
      (processRecord W cfg pm st h).1.warns = st.warns := by
  obtain ⟨i, h1, h2, h3⟩ := (headerMapFrom_get [] 0 h col).2 hmem
  refine ⟨i, h1, h2, ?_⟩
  simp only [Nat.zero_add] at h3
  have hres : resolveHeader cfg st h =
      { st with fields := [(i : Int) + 1], warns := st.warns } := by
    simp [resolveHeader, hfields, hcol, resolveColnames, headerMap, h3]
  unfold processRecord parseHeader
  simp only [hhdr, if_true, hres]
  split <;> simp

/-! ## Whole runs -/

theorem chunksLoop_noErr {Re : Type} (W : World Re) (cfg : Config) (pm : PatternsMap Re)
    (st : St) (cs : List (Chunk Record)) (hcs : ∀ c ∈ cs, c.Err = none) :
    chunksLoop W cfg pm st cs = recordsLoop W cfg pm st (allRecords cs) := by
  induction cs generalizing st with
  | nil => simp [chunksLoop, allRecords, recordsLoop]
  | cons c rest ih =>
    have hc : c.Err = none := hcs c (List.mem_cons_self _ _)
    have hrest : ∀ c ∈ rest, c.Err = none := fun c h => hcs c (List.mem_cons_of_mem _ h)
    unfold chunksLoop allRecords
    simp only [hc, recordsLoop_append]
    rcases hl : recordsLoop W cfg pm st c.Data with ⟨s2, _ | e⟩
    · exact ih s2 hrest
    · simp

/-- C9. The fruit table read from one file without read, write or flush
error, key column `name`, literal pattern `apple`: with ignore-case and invert
off the run writes the header and `1,apple`; with ignore-case on it writes the
header, `1,apple` and `3,Apple`; with invert on it writes the header,
`2,banana` and `3,Apple`. The lower-case fold is only assumed to send `apple`
and `Apple` to `apple` and `banana` elsewhere. -/
theorem fruit_scenario {Re : Type} (W : World Re) (file : String) (cs : List (Chunk Record))
    (hopen : W.wopen "-" = none)
    (hread : W.csvReader file = .ok cs) (hcs : ∀ c ∈ cs, c.Err = none)
    (hrows : allRecords cs = fruitRows)
    (hwrite : ∀ o r, W.writeErr o r = none) (hflush : ∀ o, W.flushErr o = none)
    (hl1 : W.toLower "apple" = "apple") (hl2 : W.toLower "Apple" = "apple")
    (hl3 : W.toLower "banana" ≠ "apple") :
    Run W (fruitConfig false false) [file] =
      ⟨[["id", "name"], ["1", "apple"]], [], none⟩ ∧
    Run W (fruitConfig true false) [file] =
      ⟨[["id", "name"], ["1", "apple"], ["3", "Apple"]], [], none⟩ ∧
    Run W (fruitConfig false true) [file] =
      ⟨[["id", "name"], ["2", "banana"], ["3", "Apple"]], [], none⟩ := by
  have hl4 : ¬ "apple" = W.toLower "banana" := fun h => hl3 h.symm
  refine ⟨?_, ?_, ?_⟩
  · simp [Run, fruitConfig, buildPatterns, inlinePatterns, mapSet, hopen, filesLoop, hread,
      chunksLoop_noErr W _ _ _ cs hcs, hrows, fruitRows, fileInit, recordsLoop, processRecord,
      parseHeader, resolveHeader, headerMap, headerMapFrom, resolveColnames, mapGet,
      validateFields, checkFieldsLoop, matchRecord, fillItems, isHit, keep, hwrite, hflush]
  · simp [Run, fruitConfig, buildPatterns, inlinePatterns, mapSet, hopen, filesLoop, hread,
      chunksLoop_noErr W _ _ _ cs hcs, hrows, fruitRows, fileInit, recordsLoop, processRecord,
      parseHeader, resolveHeader, headerMap, headerMapFrom, resolveColnames, mapGet,
      validateFields, checkFieldsLoop, matchRecord, fillItems, isHit, keep, hwrite, hflush,
      hl1, hl2, hl4]
  · simp [Run, fruitConfig, buildPatterns, inlinePatterns, mapSet, hopen, filesLoop, hread,
      chunksLoop_noErr W _ _ _ cs hcs, hrows, fruitRows, fileInit, recordsLoop, processRecord,
      parseHeader, resolveHeader, headerMap, headerMapFrom, resolveColnames, mapGet,
      validateFields, checkFieldsLoop, matchRecord, fillItems, isHit, keep, hwrite, hflush]

/-! ## Where errors come from -/

theorem inlinePatterns_err {Re : Type} (W : World Re) (ic re : Bool) (P : List String)
    (m : PatternsMap Re) (e : Err) (h : inlinePatterns W ic re m P = .error e) :
    e.isConfig = false := by
  induction P generalizing m with
  | nil => simp [inlinePatterns] at h
  | cons p rest ih =>
    unfold inlinePatterns at h
    split at h
    · simp only at h
      split at h
      · simp only [Except.error.injEq] at h
        subst h
        rfl
      · exact ih _ h
    · split at h
      · exact ih _ h
      · exact ih _ h

theorem filePatternsChunks_err {Re : Type} (W : World Re) (ic re : Bool)
    (cs : List (Chunk String)) (m : PatternsMap Re) (e : Err)
    (h : filePatternsChunks W ic re m cs = .error e) : e.isConfig = false := by
  induction cs generalizing m with
  | nil => simp [filePatternsChunks] at h
  | cons c rest ih =>
    unfold filePatternsChunks at h
    split at h
    · simp only [Except.error.injEq] at h
      subst h
      rfl
    · split at h
      · rename_i e1 hD
        simp only [Except.error.injEq] at h
        subst h
        rw [filePatternsData_eq] at hD
        exact inlinePatterns_err W ic re c.Data m e1 hD
      · exact ih _ h

theorem buildPatterns_err {Re : Type} (W : World Re) (cfg : Config) (e : Err)
    (h : buildPatterns W cfg = .error e) : e.isConfig = false := by
  unfold buildPatterns at h
  split at h
  · rename_i e1 hI
    simp only [Except.error.injEq] at h
    subst h
    exact inlinePatterns_err W _ _ _ _ e1 hI
  · split at h
    · split at h
      · simp only [Except.error.injEq] at h
        subst h
        rfl
      · exact filePatternsChunks_err W _ _ _ _ e h
    · simp at h

theorem regexpLoop_err {Re : Type} (W : World Re) (v : String) (m : PatternsMap Re) (e : Err)
    (h : regexpLoop W v m = .error e) : e.isConfig = false := by
  induction m with
  | nil => simp [regexpLoop] at h
  | cons x t ih =>
    obtain ⟨k, o⟩ := x
    cases o with
    | none =>
      simp only [regexpLoop, Except.error.injEq] at h
      subst h
      rfl
    | some re =>
      simp only [regexpLoop] at h
      split at h
      · simp at h
      · exact ih h

theorem isHit_err {Re : Type} (W : World Re) (cfg : Config) (pm : PatternsMap Re) (v : String)
    (e : Err) (h : isHit W cfg pm v = .error e) : e.isConfig = false := by
  unfold isHit at h
  split at h
  · exact regexpLoop_err W v pm e h
  · simp only at h
    split at h <;> simp at h

theorem fillItems_err (r : Record) (i : Nat) (fs : List Int) (items : List String) (e : Err)
    (h : fillItems r i fs items = .error e) : e.isConfig = false := by
  induction fs generalizing i items with
  | nil => simp [fillItems] at h
  | cons f rest ih =>
    rw [fillItems] at h
    split at h
    · simp only [Except.error.injEq] at h
      subst h
      rfl
    · split at h
      · simp only [Except.error.injEq] at h
        subst h
        rfl
      · split at h
        · exact ih _ _ h
        · simp only [Except.error.injEq] at h
          subst h
          rfl

theorem processRecord_err {Re : Type} (W : World Re) (cfg : Config) (pm : PatternsMap Re)
    (st st1 : St) (r : Record) (e : Err)
    (h : processRecord W cfg pm st r = (st1, some e)) : e.isConfig = false := by
  unfold processRecord at h
  split at h
  · unfold parseHeader at h
    simp only at h
    split at h
    · simp only [Prod.mk.injEq, Option.some.injEq] at h
      rw [← h.2]
      rfl
    · simp at h
  · split at h
    · rename_i sv e1 hv
      simp only [Prod.mk.injEq, Option.some.injEq] at h
      rw [← h.2]
      unfold validateFields at hv
      split at hv
      · simp only at hv
        split at hv
        · simp only [Prod.mk.injEq, Option.some.injEq] at hv
          rw [← hv.2]
          rfl
        · simp at hv
      · simp at hv
    · unfold matchRecord at h
      split at h
      · rename_i e1 hfill
        simp only [Prod.mk.injEq, Option.some.injEq] at h
        rw [← h.2]
        exact fillItems_err _ _ _ _ e1 hfill
      · simp only at h
        split at h
        · simp only [Prod.mk.injEq, Option.some.injEq] at h
          rw [← h.2]
          rfl
        · split at h
          · rename_i e1 hh
            simp only [Prod.mk.injEq, Option.some.injEq] at h
            rw [← h.2]
            exact isHit_err W cfg pm _ e1 hh
          · split at h
            · split at h
              · simp only [Prod.mk.injEq, Option.some.injEq] at h
                rw [← h.2]
                rfl
              · simp at h
            · simp at h

theorem recordsLoop_err {Re : Type} (W : World Re) (cfg : Config) (pm : PatternsMap Re)
    (st st1 : St) (rs : List Record) (e : Err)
    (h : recordsLoop W cfg pm st rs = (st1, some e)) : e.isConfig = false := by
  induction rs generalizing st with
  | nil => simp [recordsLoop] at h
  | cons r rest ih =>
    unfold recordsLoop at h
    split at h
    · rename_i s2 e1 hstep
      simp only [Prod.mk.injEq, Option.some.injEq] at h
      rw [← h.2]
      exact processRecord_err W cfg pm st s2 r e1 hstep
    · exact ih _ h

theorem chunksLoop_err {Re : Type} (W : World Re) (cfg : Config) (pm : PatternsMap Re)
    (st st1 : St) (cs : List (Chunk Record)) (e : Err)
    (h : chunksLoop W cfg pm st cs = (st1, some e)) : e.isConfig = false := by
  induction cs generalizing st with
  | nil => simp [chunksLoop] at h
  | cons c rest ih =>
    unfold chunksLoop at h
    split at h
    · simp only [Prod.mk.injEq, Option.some.injEq] at h
      rw [← h.2]
      rfl
    · split at h
      · rename_i s2 e1 hl
        simp only [Prod.mk.injEq, Option.some.injEq] at h
        rw [← h.2]
        exact recordsLoop_err W cfg pm st s2 c.Data e1 hl
      · exact ih _ h

theorem filesLoop_err {Re : Type} (W : World Re) (cfg : Config) (pm : PatternsMap Re)
    (st st1 : St) (files : List String) (e : Err)
    (h : filesLoop W cfg pm st files = (st1, some e)) : e.isConfig = false := by
  induction files generalizing st with
  | nil => simp [filesLoop] at h
  | cons f rest ih =>
    unfold filesLoop at h
    split at h
    · simp only [Prod.mk.injEq, Option.some.injEq] at h
      rw [← h.2]
      rfl
    · split at h
      · rename_i s2 e1 hl
        simp only [Prod.mk.injEq, Option.some.injEq] at h
        rw [← h.2]
        exact chunksLoop_err W cfg pm _ s2 _ e1 hl
      · exact ih _ h

/-- The run after the two configuration checks, lines 58-215. -/
theorem Run_after_checks {Re : Type} (W : World Re) (cfg : Config) (files : List String)
    (e : Err) (hkey : ¬ (cfg.fields.length > 1 ∨ cfg.colnames.length > 1))
    (hpat : ¬ (cfg.patterns.length = 0 ∧ cfg.patternFile = ""))
    (h : (Run W cfg files).err = some e) : e.isConfig = false := by
  unfold Run at h
  simp only [hkey, hpat, if_false] at h
  split at h
  · rename_i e1 hb
    simp only [Option.some.injEq] at h
    rw [← h]
    exact buildPatterns_err W cfg e1 hb
  · split at h
    · simp only [Option.some.injEq] at h
      rw [← h]
      rfl
    · split at h
      · rename_i s2 e1 hl
        simp only [Option.some.injEq] at h
        rw [← h]
        exact filesLoop_err W cfg _ _ s2 files e1 hl
      · split at h
        · simp only [Option.some.injEq] at h
          rw [← h]
          rfl
        · simp at h

/-- C10. With no inline pattern and no pattern file the run ends with a
configuration error, the same one whatever the collaborators and the input
files are, with nothing written and no warning logged; and a run ends with the
missing-pattern error exactly when the single-key check passes, the inline
pattern list is empty and no pattern file is named, so the check does not fail
when either is supplied. -/
theorem missing_patterns_is_config_error {Re : Type} (W : World Re) (cfg : Config)
    (files : List String) :
    (cfg.patterns = [] → cfg.patternFile = "" →
      ∃ e, e.isConfig = true ∧
        ∀ (Re2 : Type) (W2 : World Re2) (files2 : List String),
          Run W2 cfg files2 = ⟨[], [], some e⟩) ∧
    ((Run W cfg files).err = some .noPatternFlag ↔
      (cfg.fields.length ≤ 1 ∧ cfg.colnames.length ≤ 1) ∧
        cfg.patterns = [] ∧ cfg.patternFile = "") := by
  constructor
  · intro hp hf
    by_cases hkey : cfg.fields.length > 1 ∨ cfg.colnames.length > 1
    · exact ⟨.onlySingleKey, rfl, fun _ _ _ => by simp [Run, hkey]⟩
    · exact ⟨.noPatternFlag, rfl, fun _ _ _ => by simp [Run, hkey, hp, hf]⟩
  · constructor
    · intro h
      by_cases hkey : cfg.fields.length > 1 ∨ cfg.colnames.length > 1
      · simp [Run, hkey] at h
      · by_cases hpat : cfg.patterns.length = 0 ∧ cfg.patternFile = ""
        · refine ⟨by omega, ?_, hpat.2⟩
          exact List.length_eq_zero.mp hpat.1
        · have := Run_after_checks W cfg files _ hkey hpat h
          simp [Err.isConfig] at this
    · rintro ⟨hkey, hp, hf⟩
      have hkey2 : ¬ (cfg.fields.length > 1 ∨ cfg.colnames.length > 1) := by omega
      simp [Run, hkey2, hp, hf]

/-! ## Instances at the concrete world -/

/-- Witness for C1: the record `1,apple` of the fruit table, key field 2,
pattern `apple`. -/
theorem literal_match_decides_output_witness :
    ∃ pm, buildPatterns fruitWorld (fruitConfig false false) = .ok pm ∧
      ((fruitConfig false false).invert = false →
        ((processRecord fruitWorld (fruitConfig false false) pm afterHeader ["1", "apple"]).1.out
            = afterHeader.out ++ [["1", "apple"]] ↔ "apple" ∈ (fruitConfig false false).patterns) ∧
        ((processRecord fruitWorld (fruitConfig false false) pm afterHeader ["1", "apple"]).1.out
            = afterHeader.out ↔ "apple" ∉ (fruitConfig false false).patterns)) ∧
      ((fruitConfig false false).invert = true →
        ((processRecord fruitWorld (fruitConfig false false) pm afterHeader ["1", "apple"]).1.out
            = afterHeader.out ++ [["1", "apple"]] ↔ "apple" ∉ (fruitConfig false false).patterns) ∧
        ((processRecord fruitWorld (fruitConfig false false) pm afterHeader ["1", "apple"]).1.out
            = afterHeader.out ↔ "apple" ∈ (fruitConfig false false).patterns)) :=
  literal_match_decides_output fruitWorld (fruitConfig false false) afterHeader ["1", "apple"] 2
    "apple" rfl rfl rfl rfl rfl (by decide) rfl (Or.inl rfl)

/-- Witness for C2: of the two patterns `a` and `b` only `a` matches the value
`apple`, and the record is a hit and is written. -/
theorem regexp_hit_is_union_witness :
    ∃ pm, buildPatterns fruitWorld twoPatternConfig = .ok pm ∧
      isHit fruitWorld twoPatternConfig pm "apple" = .ok true ∧
      (processRecord fruitWorld twoPatternConfig pm afterHeader ["1", "apple"]).1.out =
        afterHeader.out ++ [["1", "apple"]] := by
  have hall : ∀ p ∈ twoPatternConfig.patterns, ∃ re,
      fruitWorld.compile (regexpSource twoPatternConfig.ignoreCase p) = .ok re := by
    intro p hp
    have hp2 : p = "a" ∨ p = "b" := by simpa [twoPatternConfig] using hp
    rcases hp2 with h | h <;> subst h <;> exact ⟨_, rfl⟩
  obtain ⟨pm, hit, h1, h2, h3, h4⟩ :=
    regexp_hit_is_union fruitWorld twoPatternConfig afterHeader ["1", "apple"] 2 "apple"
      rfl rfl hall rfl rfl (by decide) rfl (Or.inl rfl)
  have hhit : hit = true := h3.mpr ⟨"a", by decide, (false, "a".data), rfl, by decide⟩
  subst hhit
  exact ⟨pm, h1, h2, h4⟩

/-- Witness for C3: under the ASCII fold the value `Foo` is a hit for the
pattern `foo`, and the value `foo` is a hit for the pattern `Foo`. -/
theorem literal_fold_hit_witness :
    (∃ pm, buildPatterns fruitWorld (foldConfig "foo") = .ok pm ∧
      isHit fruitWorld (foldConfig "foo") pm "Foo" = .ok true) ∧
    (∃ pm, buildPatterns fruitWorld (foldConfig "Foo") = .ok pm ∧
      isHit fruitWorld (foldConfig "Foo") pm "foo" = .ok true) := by
  constructor
  · obtain ⟨pm, _, h1, _, _, _, h5⟩ :=
      literal_fold_hit fruitWorld (foldConfig "foo") ⟨[1], [], [], false, true, []⟩ ["Foo"] 1
        "Foo" rfl rfl rfl rfl rfl (by decide) rfl (Or.inl rfl)
    exact ⟨pm, h1, (h5 (by decide)).1 rfl⟩
  · obtain ⟨pm, _, h1, _, _, _, h5⟩ :=
      literal_fold_hit fruitWorld (foldConfig "Foo") ⟨[1], [], [], false, true, []⟩ ["foo"] 1
        "foo" rfl rfl rfl rfl rfl (by decide) rfl (Or.inl rfl)
    exact ⟨pm, h1, (h5 (by decide)).2 rfl⟩

/-- Witness for C4: the record `2,banana` of the fruit table under the pattern
`apple`. -/
theorem invert_is_complement_witness :
    (∀ hit, keep true hit = !keep false hit) ∧
    (((processRecord fruitWorld (withInvert (fruitConfig false false) true) [("apple", none)]
          afterHeader ["2", "banana"]).1.out = afterHeader.out ++ [["2", "banana"]] ∧
        (processRecord fruitWorld (withInvert (fruitConfig false false) false) [("apple", none)]
          afterHeader ["2", "banana"]).1.out = afterHeader.out) ∨
      ((processRecord fruitWorld (withInvert (fruitConfig false false) true) [("apple", none)]
          afterHeader ["2", "banana"]).1.out = afterHeader.out ∧
        (processRecord fruitWorld (withInvert (fruitConfig false false) false) [("apple", none)]
          afterHeader ["2", "banana"]).1.out = afterHeader.out ++ [["2", "banana"]])) :=
  invert_is_complement fruitWorld (fruitConfig false false) [("apple", none)] afterHeader
    afterHeader ["2", "banana"] 2 "banana" rfl rfl rfl (Or.inl rfl) rfl rfl (Or.inl rfl)
    (by decide) rfl

/-- Witness for C6 as amended: the header `name,id,name` and the key name
`name`. -/
theorem name_binds_to_last_occurrence_witness :
    ∃ i, ["name", "id", "name"].get? i = some "name" ∧
      (∀ j, i < j → ["name", "id", "name"].get? j ≠ some "name") ∧
      (processRecord fruitWorld (fruitConfig false false) []
        (startState (fruitConfig false false)) ["name", "id", "name"]).1.fields = [(i : Int) + 1] ∧
      (processRecord fruitWorld (fruitConfig false false) []
        (startState (fruitConfig false false)) ["name", "id", "name"]).1.warns =
        (startState (fruitConfig false false)).warns :=
  name_binds_to_last_occurrence fruitWorld (fruitConfig false false) []
    (startState (fruitConfig false false)) ["name", "id", "name"] "name" rfl rfl rfl (by decide)

/-- Witness for C7: the fruit table with invert on. -/
theorem header_passthrough_witness :
    (∃ kept, kept.Sublist [["1", "apple"], ["2", "banana"], ["3", "Apple"]] ∧
      (chunksLoop fruitWorld (fruitConfig false true) [("apple", none)]
        (fileInit (fruitConfig false true) ⟨[], [], [], false, true, []⟩)
        [⟨fruitRows, none⟩]).1.out = [] ++ ["id", "name"] :: kept) ∧
    (∀ (cfg2 : Config) (pm2 : PatternsMap (Bool × List Char)),
      cfg2.colnames = (fruitConfig false true).colnames →
      processRecord fruitWorld cfg2 pm2
          (fileInit (fruitConfig false true) ⟨[], [], [], false, true, []⟩) ["id", "name"] =
        processRecord fruitWorld (fruitConfig false true) [("apple", none)]
          (fileInit (fruitConfig false true) ⟨[], [], [], false, true, []⟩) ["id", "name"]) :=
  header_passthrough fruitWorld (fruitConfig false true) [("apple", none)]
    ⟨[], [], [], false, true, []⟩ [⟨fruitRows, none⟩] ["id", "name"]
    [["1", "apple"], ["2", "banana"], ["3", "Apple"]] rfl rfl

/-- Witness for C8: the fruit table, which is processed without error. -/
theorem output_is_ordered_filter_witness :
    chunksLoop fruitWorld (fruitConfig false false) [("apple", none)]
        (fileInit (fruitConfig false false) ⟨[], [], [], false, true, []⟩) [⟨fruitRows, none⟩] =
      (⟨[2], [["id", "name"], ["1", "apple"]], [], false, false, ["Apple"]⟩, none) ∧
    [["id", "name"], ["1", "apple"]] =
      [] ++ headerRows (fruitConfig false false) (allRecords [⟨fruitRows, none⟩]) ++
        (dataRows (fruitConfig false false) (allRecords [⟨fruitRows, none⟩])).filter
          (keeps fruitWorld (fruitConfig false false) [("apple", none)] [2]) :=
  ⟨by decide,
    output_is_ordered_filter fruitWorld (fruitConfig false false) [("apple", none)]
      ⟨[], [], [], false, true, []⟩
      ⟨[2], [["id", "name"], ["1", "apple"]], [], false, false, ["Apple"]⟩
      [⟨fruitRows, none⟩] (by decide)⟩

/-- Witness for C9: the concrete world, whose fold is the ASCII fold and whose
file `fruit.csv` is the fruit table in one chunk. -/
theorem fruit_scenario_witness :
    Run fruitWorld (fruitConfig false false) ["fruit.csv"] =
      ⟨[["id", "name"], ["1", "apple"]], [], none⟩ ∧
    Run fruitWorld (fruitConfig true false) ["fruit.csv"] =
      ⟨[["id", "name"], ["1", "apple"], ["3", "Apple"]], [], none⟩ ∧
    Run fruitWorld (fruitConfig false true) ["fruit.csv"] =
      ⟨[["id", "name"], ["2", "banana"], ["3", "Apple"]], [], none⟩ :=
  fruit_scenario fruitWorld "fruit.csv" [⟨fruitRows, none⟩] rfl rfl
    (by intro c hc; simp at hc; subst hc; rfl) rfl (fun _ _ => rfl) (fun _ => rfl)
    (by decide) (by decide) (by decide)

/-! ## Inline patterns and the pattern source -/

theorem inlinePatterns_append {Re : Type} (W : World Re) (ic re : Bool) (A B : List String)
    (m : PatternsMap Re) :
    inlinePatterns W ic re m (A ++ B) =
      match inlinePatterns W ic re m A with
      | .error e => .error e
      | .ok m1 => inlinePatterns W ic re m1 B := by
  induction A generalizing m with
  | nil => simp [inlinePatterns]
  | cons p rest ih =>
    simp only [List.cons_append, inlinePatterns]
    cases re with
    | true =>
      simp only [if_true]
      cases W.compile (if ic = true then "(?i)" ++ p else p) with
      | error e => rfl
      | ok r => exact ih _
    | false =>
      simp only [Bool.false_eq_true, if_false]
      cases ic with
      | true => exact ih _
      | false => exact ih _

theorem filePatternsChunks_noErr {Re : Type} (W : World Re) (ic re : Bool)
    (cs : List (Chunk String)) (m : PatternsMap Re) (hcs : ∀ c ∈ cs, c.Err = none) :
    filePatternsChunks W ic re m cs = inlinePatterns W ic re m (allRecords cs) := by
  induction cs generalizing m with
  | nil => simp [filePatternsChunks, allRecords, inlinePatterns]
  | cons c rest ih =>
    have hc : c.Err = none := hcs c (List.mem_cons_self _ _)
    have hrest : ∀ c ∈ rest, c.Err = none := fun c h => hcs c (List.mem_cons_of_mem _ h)
    unfold filePatternsChunks allRecords
    simp only [hc, inlinePatterns_append, filePatternsData_eq]
    cases inlinePatterns W ic re m c.Data with
    | error e => rfl
    | ok m1 => exact ih m1 hrest

theorem buildPatterns_supplied {Re : Type} (W : World Re) (cfg : Config)
    (hsrc : sourceReadable W cfg = true) :
    buildPatterns W cfg =
      inlinePatterns W cfg.ignoreCase cfg.useRegexp [] (suppliedPatterns W cfg) := by
  unfold buildPatterns suppliedPatterns
  unfold sourceReadable at hsrc
  by_cases hf : cfg.patternFile = ""
  · simp only [hf, ne_eq, not_true_eq_false, if_false]
    cases inlinePatterns W cfg.ignoreCase cfg.useRegexp [] cfg.patterns <;> rfl
  · simp only [ne_eq, hf, not_false_eq_true, if_true] at hsrc ⊢
    cases hR : W.patternReader cfg.patternFile with
    | error e => simp [hR] at hsrc
    | ok cs =>
      simp only [hR, List.all_eq_true, Option.isNone_iff_eq_none] at hsrc
      simp only [inlinePatterns_append]
      cases inlinePatterns W cfg.ignoreCase cfg.useRegexp [] cfg.patterns with
      | error e => rfl
      | ok m => exact filePatternsChunks_noErr W _ _ cs m hsrc

/-- C18. When the pattern file is read without error, the pattern map built
from the inline patterns followed by the file is the result (map or error) of
building from the single inline list made of the inline patterns followed by
the data of the file, with no pattern file, in either mode and with either
ignore-case setting. -/
theorem source_patterns_as_inline {Re : Type} (W : World Re) (cfg : Config)
    (cs : List (Chunk String)) (hfile : cfg.patternFile ≠ "")
    (hread : W.patternReader cfg.patternFile = .ok cs) (hcs : ∀ c ∈ cs, c.Err = none) :
    buildPatterns W cfg = buildPatterns W (inlineOnly cfg (cfg.patterns ++ allRecords cs)) := by
  have h1 : sourceReadable W cfg = true := by
    simp only [sourceReadable, ne_eq, hfile, not_false_eq_true, if_true, hread,
      List.all_eq_true, Option.isNone_iff_eq_none]
    exact hcs
  have h2 : sourceReadable W (inlineOnly cfg (cfg.patterns ++ allRecords cs)) = true := by
    simp [sourceReadable, inlineOnly]
  rw [buildPatterns_supplied W cfg h1, buildPatterns_supplied W _ h2]
  simp [suppliedPatterns, inlineOnly, hfile, hread]

/-- Witness for C18: the inline pattern `a` with the file `patterns.txt`, in
literal mode. -/
theorem source_patterns_as_inline_witness :
    buildPatterns patternWorld (sourceConfig false) =
      buildPatterns patternWorld
        (inlineOnly (sourceConfig false) ((sourceConfig false).patterns ++
          allRecords [⟨["b", "("], none⟩])) :=
  source_patterns_as_inline patternWorld (sourceConfig false) [⟨["b", "("], none⟩]
    (by decide) rfl (by intro c hc; simp at hc; subst hc; rfl)

/-! ## Failure of the pattern build in regexp mode -/

theorem inlinePatterns_regexp_error {Re : Type} (W : World Re) (ic : Bool) (P : List String)
    (m : PatternsMap Re) (e : Err) (h : inlinePatterns W ic true m P = .error e) :
    ∃ p ∈ P, ∃ msg, W.compile (regexpSource ic p) = .error msg ∧ e = .regexpCompile msg := by
  induction P generalizing m with
  | nil => simp [inlinePatterns] at h
  | cons p rest ih =>
    simp only [inlinePatterns, if_true] at h
    cases hc : W.compile (if ic = true then "(?i)" ++ p else p) with
    | error msg =>
      simp only [hc, Except.error.injEq] at h
      exact ⟨p, List.mem_cons_self _ _, msg, hc, h.symm⟩
    | ok re =>
      simp only [hc] at h
      obtain ⟨q, hq, msg, h1, h2⟩ := ih _ h
      exact ⟨q, List.mem_cons_of_mem _ hq, msg, h1, h2⟩

theorem inlinePatterns_regexp_ok_all {Re : Type} (W : World Re) (ic : Bool) (P : List String)
    (m m1 : PatternsMap Re) (h : inlinePatterns W ic true m P = .ok m1) :
    ∀ p ∈ P, ∃ re, W.compile (regexpSource ic p) = .ok re := by
  induction P generalizing m with
  | nil =>
    intro p hp
    simp at hp
  | cons p rest ih =>
    simp only [inlinePatterns, if_true] at h
    cases hc : W.compile (if ic = true then "(?i)" ++ p else p) with
    | error msg => simp [hc] at h
    | ok re =>
      simp only [hc] at h
      intro q hq
      rcases List.mem_cons.mp hq with h1 | h1
      · subst h1
        exact ⟨re, hc⟩
      · exact ih _ h q h1

/-- C11 (amended). In regexp mode, when the pattern file (if one is named) is read
without error, building the pattern map fails exactly when some supplied
pattern, inline or from the file, with the case-insensitive prefix under
ignore-case, fails to compile; the error is then the compile error of such a
pattern, and a run that reaches the build ends with that error, with nothing
written and no warning logged, whatever the input files are. -/
theorem regexp_build_fails_iff {Re : Type} (W : World Re) (cfg : Config)
    (hre : cfg.useRegexp = true) (hsrc : sourceReadable W cfg = true) :
    ((∃ e, buildPatterns W cfg = .error e) ↔
      ∃ p ∈ suppliedPatterns W cfg, ∃ msg,
        W.compile (regexpSource cfg.ignoreCase p) = .error msg) ∧
    (∀ e, buildPatterns W cfg = .error e →
      (∃ p ∈ suppliedPatterns W cfg, ∃ msg,
        W.compile (regexpSource cfg.ignoreCase p) = .error msg ∧ e = .regexpCompile msg) ∧
      (¬ (cfg.fields.length > 1 ∨ cfg.colnames.length > 1) →
        ¬ (cfg.patterns.length = 0 ∧ cfg.patternFile = "") →
        ∀ files, Run W cfg files = ⟨[], [], some e⟩)) := by
  have hb := buildPatterns_supplied W cfg hsrc
  rw [hre] at hb
  have herr : ∀ e, buildPatterns W cfg = .error e →
      ∃ p ∈ suppliedPatterns W cfg, ∃ msg,
        W.compile (regexpSource cfg.ignoreCase p) = .error msg ∧ e = .regexpCompile msg := by
    intro e he
    rw [hb] at he
    exact inlinePatterns_regexp_error W _ _ _ e he
  refine ⟨⟨?_, ?_⟩, ?_⟩
  · rintro ⟨e, he⟩
    obtain ⟨p, hp, msg, h1, _⟩ := herr e he
    exact ⟨p, hp, msg, h1⟩
  · rintro ⟨p, hp, msg, h1⟩
    cases hc : buildPatterns W cfg with
    | error e => exact ⟨e, rfl⟩
    | ok pm =>
      rw [hb] at hc
      obtain ⟨re, h2⟩ := inlinePatterns_regexp_ok_all W _ _ _ pm hc p hp
      rw [h1] at h2
      cases h2
  · intro e he
    refine ⟨herr e he, ?_⟩
    intro hkey hpat files
    unfold Run
    rw [if_neg hkey, if_neg hpat, he]

/-- Witness for C11 as amended: the inline pattern `a` and the file `patterns.txt`, whose
second line `(` does not compile. -/
theorem regexp_build_fails_iff_witness :
    ((∃ e, buildPatterns patternWorld (sourceConfig true) = .error e) ↔
      ∃ p ∈ suppliedPatterns patternWorld (sourceConfig true), ∃ msg,
        patternWorld.compile (regexpSource (sourceConfig true).ignoreCase p) = .error msg) ∧
    (∀ e, buildPatterns patternWorld (sourceConfig true) = .error e →
      (∃ p ∈ suppliedPatterns patternWorld (sourceConfig true), ∃ msg,
        patternWorld.compile (regexpSource (sourceConfig true).ignoreCase p) = .error msg ∧
          e = .regexpCompile msg) ∧
      (¬ ((sourceConfig true).fields.length > 1 ∨ (sourceConfig true).colnames.length > 1) →
        ¬ ((sourceConfig true).patterns.length = 0 ∧ (sourceConfig true).patternFile = "") →
        ∀ files, Run patternWorld (sourceConfig true) files = ⟨[], [], some e⟩)) :=
  regexp_build_fails_iff patternWorld (sourceConfig true) rfl rfl

/-! ## The single-key check -/

/-- C14. When more than one field index or more than one column name is
configured, the run ends with the single-key configuration error, the same
outcome whatever the collaborators and the input files are, with nothing
written and no warning logged; and a run ends with that error exactly when
more than one index or more than one name is configured, so the check does not
fail for at most one index and at most one name. -/
theorem multiple_keys_is_config_error {Re : Type} (W : World Re) (cfg : Config)
    (files : List String) :
    (cfg.fields.length > 1 ∨ cfg.colnames.length > 1 →
      Err.onlySingleKey.isConfig = true ∧
        ∀ (Re2 : Type) (W2 : World Re2) (files2 : List String),
          Run W2 cfg files2 = ⟨[], [], some .onlySingleKey⟩) ∧
    ((Run W cfg files).err = some .onlySingleKey ↔
      (cfg.fields.length > 1 ∨ cfg.colnames.length > 1)) := by
  constructor
  · intro hkey
    exact ⟨rfl, fun _ _ _ => by unfold Run; rw [if_pos hkey]⟩
  · constructor
    · intro h
      by_contra hkey
      by_cases hpat : cfg.patterns.length = 0 ∧ cfg.patternFile = ""
      · unfold Run at h
        rw [if_neg hkey, if_pos hpat] at h
        simp at h
      · have := Run_after_checks W cfg files _ hkey hpat h
        simp [Err.isConfig] at this
    · intro hkey
      unfold Run
      rw [if_pos hkey]

/-- Witness for C14: the fruit configuration with the two field indices 1 and
2 ends with the single-key error, and the fruit configuration itself does
not. -/
theorem multiple_keys_is_config_error_witness :
    (Run fruitWorld { fruitConfig false false with fields := [1, 2] } ["fruit.csv"]).err =
        some .onlySingleKey ∧
      (Run fruitWorld (fruitConfig false false) ["fruit.csv"]).err ≠ some .onlySingleKey :=
  ⟨(multiple_keys_is_config_error fruitWorld
      { fruitConfig false false with fields := [1, 2] } ["fruit.csv"]).2.mpr
      (Or.inl (by decide)),
    fun h => absurd ((multiple_keys_is_config_error fruitWorld (fruitConfig false false)
      ["fruit.csv"]).2.mp h) (by decide)⟩

/-! ## The resolved index lies within the header -/

theorem processRecord_header {Re : Type} (W : World Re) (cfg : Config) (pm : PatternsMap Re)
    (st : St) (h : Record) (hhdr : st.parseHeaderRow = true) :
    (processRecord W cfg pm st h).1.fields = (resolveHeader cfg st h).fields ∧
      (processRecord W cfg pm st h).1.warns = (resolveHeader cfg st h).warns ∧
      (processRecord W cfg pm st h).1.checkFields = st.checkFields ∧
      (processRecord W cfg pm st h).1.items = st.items ∧
      (processRecord W cfg pm st h).1.out = st.out ++ [h] := by
  obtain ⟨k1, _, k3, k4⟩ := resolveHeader_keeps cfg st h
  unfold processRecord parseHeader
  simp only [hhdr, if_true]
  split <;> simp [k1, k3, k4]

theorem resolveHeader_found (cfg : Config) (st : St) (h : Record) (col : String)
    (hfields : st.fields = []) (hcol : cfg.colnames = [col]) (hmem : col ∈ h) :
    ∃ i, h.get? i = some col ∧ (resolveHeader cfg st h).fields = [(i : Int) + 1] ∧
      (resolveHeader cfg st h).warns = st.warns := by
  obtain ⟨i, h1, _, h3⟩ := (headerMapFrom_get [] 0 h col).2 hmem
  simp only [Nat.zero_add] at h3
  refine ⟨i, h1, ?_, ?_⟩ <;>
    simp [resolveHeader, hfields, hcol, resolveColnames, headerMap, h3]

/-- On a stream entered with no field bound (the first stream of a run), what
C15 describes holds: when the header row `h` contains the configured column
name, resolution by name leaves exactly one field index `f`, with
`1 ≤ f ≤ |h|` and `h[f-1]` equal to the name; and for every first data record
with at least as many fields as `h`, the validation succeeds and keeps that
index, logging no warning. -/
theorem resolved_index_within_header {Re : Type} (W : World Re) (cfg : Config)
    (pm : PatternsMap Re) (st : St) (h : Record) (col : String)
    (hhdr : st.parseHeaderRow = true) (hfields : st.fields = [])
    (hcheck : st.checkFields = true) (hcol : cfg.colnames = [col]) (hmem : col ∈ h) :
    ∃ f : Nat, 1 ≤ f ∧ f ≤ h.length ∧ h.get? (f - 1) = some col ∧
      (processRecord W cfg pm st h).1.fields = [(f : Int)] ∧
      ∀ d : Record, h.length ≤ d.length →
        (validateFields (processRecord W cfg pm st h).1 d).2 = none ∧
        (validateFields (processRecord W cfg pm st h).1 d).1.fields = [(f : Int)] ∧
        (validateFields (processRecord W cfg pm st h).1 d).1.warns =
          (processRecord W cfg pm st h).1.warns := by
  obtain ⟨i, h1, h2, _⟩ := resolveHeader_found cfg st h col hfields hcol hmem
  obtain ⟨p1, _, p3, _, _⟩ := processRecord_header W cfg pm st h hhdr
  have hi : i < h.length := by
    by_contra hc
    rw [List.get?_eq_none.mpr (by omega)] at h1
    cases h1
  have hf : (processRecord W cfg pm st h).1.fields = [((i + 1 : Nat) : Int)] := by
    rw [p1, h2]
    simp
  refine ⟨i + 1, by omega, by omega, by simpa using h1, hf, ?_⟩
  intro d hd
  have hgt : ¬ (((i + 1 : Nat) : Int) > (d.length : Int)) := by omega
  unfold validateFields
  simp only [p3, hcheck, if_true, hf, checkFieldsLoop, hgt, if_false, List.nil_append,
    List.length_cons, List.length_nil]
  simp

/-- Instance of `resolved_index_within_header`: the header `name,id,name` and
the key name `name`. -/
theorem resolved_index_within_header_witness :
    ∃ f : Nat, 1 ≤ f ∧ f ≤ ["name", "id", "name"].length ∧
      ["name", "id", "name"].get? (f - 1) = some "name" ∧
      (processRecord fruitWorld (fruitConfig false false) []
        (startState (fruitConfig false false)) ["name", "id", "name"]).1.fields = [(f : Int)] ∧
      ∀ d : Record, ["name", "id", "name"].length ≤ d.length →
        (validateFields (processRecord fruitWorld (fruitConfig false false) []
          (startState (fruitConfig false false)) ["name", "id", "name"]).1 d).2 = none ∧
        (validateFields (processRecord fruitWorld (fruitConfig false false) []
          (startState (fruitConfig false false)) ["name", "id", "name"]).1 d).1.fields =
            [(f : Int)] ∧
        (validateFields (processRecord fruitWorld (fruitConfig false false) []
          (startState (fruitConfig false false)) ["name", "id", "name"]).1 d).1.warns =
          (processRecord fruitWorld (fruitConfig false false) []
            (startState (fruitConfig false false)) ["name", "id", "name"]).1.warns :=
  resolved_index_within_header fruitWorld (fruitConfig false false) []
    (startState (fruitConfig false false)) ["name", "id", "name"] "name" rfl rfl rfl rfl
    (by decide)

/-! ## Indexing in the record loop -/

theorem isHit_err_nil {Re : Type} (W : World Re) (cfg : Config) (pm : PatternsMap Re)
    (v : String) (e : Err) (h : isHit W cfg pm v = .error e) : e = .nilRegexp := by
  unfold isHit at h
  split at h
  · clear * - h
    induction pm with
    | nil => simp [regexpLoop] at h
    | cons x t ih =>
      obtain ⟨k, o⟩ := x
      cases o with
      | none =>
        simp only [regexpLoop, Except.error.injEq] at h
        exact h.symm
      | some re =>
        simp only [regexpLoop] at h
        split at h
        · simp at h
        · exact ih h
  · simp only at h
    split at h <;> simp at h

theorem decide_and_write_state {Re : Type} (W : World Re) (cfg : Config)
    (pm : PatternsMap Re) (st : St) (r : Record) (v : String) :
    (decide_and_write W cfg pm st r v).1.parseHeaderRow = st.parseHeaderRow ∧
      (decide_and_write W cfg pm st r v).1.fields = st.fields ∧
      (decide_and_write W cfg pm st r v).1.warns = st.warns ∧
      (decide_and_write W cfg pm st r v).1.checkFields = false ∧
      (decide_and_write W cfg pm st r v).1.items = [v] := by
  unfold decide_and_write afterData
  split
  · simp
  · split
    · split <;> simp
    · simp

theorem decide_and_write_err {Re : Type} (W : World Re) (cfg : Config)
    (pm : PatternsMap Re) (st : St) (r : Record) (v : String) :
    (decide_and_write W cfg pm st r v).2 ≠ some .indexOutOfRange := by
  unfold decide_and_write
  split
  · rename_i e he
    rw [isHit_err_nil W cfg pm v e he]
    simp
  · split
    · split <;> simp
    · simp

theorem get?_of_le (r : Record) (f : Nat) (hf : 1 ≤ f) (hlen : f ≤ r.length) :
    ∃ v, r.get? (f - 1) = some v := by
  have hlt : f - 1 < r.length := by omega
  exact ⟨r.get ⟨f - 1, hlt⟩, List.get?_eq_get hlt⟩

theorem recordsLoop_no_index_error {Re : Type} (W : World Re) (cfg : Config)
    (pm : PatternsMap Re) (st : St) (rs : List Record) (f : Nat)
    (hhdr : st.parseHeaderRow = false) (hfields : st.fields = [(f : Int)]) (hf : 1 ≤ f)
    (hitems : st.checkFields = true ∨ st.items.length = 1)
    (hlen : ∀ r ∈ rs, f ≤ r.length) :
    (recordsLoop W cfg pm st rs).2 ≠ some .indexOutOfRange := by
  induction rs generalizing st with
  | nil => simp [recordsLoop]
  | cons r rest ih =>
    obtain ⟨v, hv⟩ := get?_of_le r f hf (hlen r (List.mem_cons_self _ _))
    have hstep := processRecord_data W cfg pm st r f v hhdr hfields hf hv hitems
    obtain ⟨d1, d2, _, _, d5⟩ := decide_and_write_state W cfg pm st r v
    have herr := decide_and_write_err W cfg pm st r v
    unfold recordsLoop
    rw [hstep]
    rcases hd : decide_and_write W cfg pm st r v with ⟨s2, _ | e⟩
    · rw [hd] at d1 d2 d5
      simp only at d1 d2 d5 ⊢
      exact ih s2 (by rw [d1, hhdr]) (by rw [d2, hfields]) (Or.inr (by rw [d5]; rfl))
        (fun q hq => hlen q (List.mem_cons_of_mem _ hq))
    · rw [hd] at herr
      simpa using herr

/-- C17. For a stream whose key is the single index `f ≥ 1`, whose first data
record `d` passes the validation (`f ≤ |d|`) and whose other data records have
at least as many fields as `d`: element `f-1` of every data record exists, and
the record loop does not end with an index error, whatever the patterns, the
flags and the writer are. -/
theorem extraction_in_bounds {Re : Type} (W : World Re) (cfg : Config) (pm : PatternsMap Re)
    (st : St) (d : Record) (rest : List Record) (f : Nat)
    (hhdr : st.parseHeaderRow = false) (hcheck : st.checkFields = true)
    (hfields : st.fields = [(f : Int)]) (hf : 1 ≤ f) (hd : f ≤ d.length)
    (hrest : ∀ r ∈ rest, d.length ≤ r.length) :
    (∀ r ∈ d :: rest, ∃ v, r.get? (f - 1) = some v) ∧
      (recordsLoop W cfg pm st (d :: rest)).2 ≠ some .indexOutOfRange := by
  have hall : ∀ r ∈ d :: rest, f ≤ r.length := by
    intro r hr
    rcases List.mem_cons.mp hr with h | h
    · rw [h]
      exact hd
    · exact le_trans hd (hrest r h)
  exact ⟨fun r hr => get?_of_le r f hf (hall r hr),
    recordsLoop_no_index_error W cfg pm st (d :: rest) f hhdr hfields hf (Or.inl hcheck) hall⟩

/-- Witness for C17: the data records of the fruit table after the header has
bound the key to field 2. -/
theorem extraction_in_bounds_witness :
    (∀ r ∈ [["1", "apple"], ["2", "banana"], ["3", "Apple"]],
        ∃ v, r.get? (2 - 1) = some v) ∧
      (recordsLoop fruitWorld (fruitConfig false false) [("apple", none)] afterHeader
        [["1", "apple"], ["2", "banana"], ["3", "Apple"]]).2 ≠ some .indexOutOfRange :=
  extraction_in_bounds fruitWorld (fruitConfig false false) [("apple", none)] afterHeader
    ["1", "apple"] [["2", "banana"], ["3", "Apple"]] 2 rfl rfl rfl (by decide) (by decide)
    (by decide)

/-! ## A short record after the validation -/

theorem keeps_single {Re : Type} (W : World Re) (cfg : Config) (pm : PatternsMap Re)
    (r : Record) (f : Nat) (v : String) (hit : Bool) (hf : 1 ≤ f)
    (hv : r.get? (f - 1) = some v) (hh : isHit W cfg pm v = .ok hit) :
    keeps W cfg pm [(f : Int)] r = keep cfg.invert hit := by
  have h2 : ¬ ((f : Int) - 1 < 0) := by omega
  have h3 : ((f : Int) - 1).toNat = f - 1 := by omega
  simp only [keeps, h2, if_false, h3, hv, hh]

theorem recordsLoop_total {Re : Type} (W : World Re) (cfg : Config) (pm : PatternsMap Re)
    (st : St) (rs : List Record) (f : Nat)
    (hpm : buildPatterns W cfg = .ok pm) (hw : ∀ o r, W.writeErr o r = none)
    (hhdr : st.parseHeaderRow = false) (hfields : st.fields = [(f : Int)]) (hf : 1 ≤ f)
    (hitems : st.checkFields = true ∨ st.items.length = 1)
    (hlen : ∀ r ∈ rs, f ≤ r.length) :
    ∃ s, recordsLoop W cfg pm st rs = (s, none) ∧ s.parseHeaderRow = false ∧
      s.fields = [(f : Int)] ∧ s.warns = st.warns ∧
      (rs ≠ [] → s.checkFields = false ∧ s.items.length = 1) ∧
      (rs = [] → s = st) ∧
      s.out = st.out ++ rs.filter (keeps W cfg pm [(f : Int)]) := by
  induction rs generalizing st with
  | nil => exact ⟨st, rfl, hhdr, hfields, rfl, by simp, fun _ => rfl, by simp⟩
  | cons r rest ih =>
    obtain ⟨v, hv⟩ := get?_of_le r f hf (hlen r (List.mem_cons_self _ _))
    have hstep := processRecord_data W cfg pm st r f v hhdr hfields hf hv hitems
    obtain ⟨hit, hhit⟩ := isHit_ok_of_build W cfg pm v hpm
    obtain ⟨d1, d2, d3, d4, d5⟩ := decide_and_write_state W cfg pm st r v
    have dout := decide_and_write_out W cfg pm st r v hit hhit
    have hkeeps := keeps_single W cfg pm r f v hit hf hv hhit
    have hnone : (decide_and_write W cfg pm st r v).2 = none := by
      unfold decide_and_write
      rw [hhit]
      simp only [hw]
      split <;> rfl
    rcases hd : decide_and_write W cfg pm st r v with ⟨s2, x⟩
    rw [hd] at d1 d2 d3 d4 d5 dout hnone
    simp only at d1 d2 d3 d4 d5 dout hnone
    subst hnone
    obtain ⟨s, i1, i2, i3, i4, i5, i6, i7⟩ := ih s2 (by rw [d1, hhdr]) (by rw [d2, hfields])
      (Or.inr (by rw [d5]; rfl)) (fun q hq => hlen q (List.mem_cons_of_mem _ hq))
    refine ⟨s, ?_, i2, i3, by rw [i4, d3], ?_, by simp, ?_⟩
    · unfold recordsLoop
      rw [hstep, hd]
      exact i1
    · intro _
      cases rest with
      | nil =>
        rw [i6 rfl, d4, d5]
        exact ⟨rfl, rfl⟩
      | cons q qs => exact i5 (by simp)
    · rw [i7, dout, List.filter_cons, hkeeps]
      by_cases hk : keep cfg.invert hit = true
      · simp [hk]
      · simp [hk]

theorem processRecord_short {Re : Type} (W : World Re) (cfg : Config) (pm : PatternsMap Re)
    (st : St) (bad : Record) (f : Nat)
    (hhdr : st.parseHeaderRow = false) (hcheck : st.checkFields = false)
    (hfields : st.fields = [(f : Int)]) (hf : 1 ≤ f) (hbad : bad.length < f) :
    processRecord W cfg pm st bad = (st, some .indexOutOfRange) := by
  have h2 : ¬ ((f : Int) - 1 < 0) := by omega
  have h3 : ((f : Int) - 1).toNat = f - 1 := by omega
  have hget : bad.get? (f - 1) = none := List.get?_eq_none.mpr (by omega)
  unfold processRecord validateFields matchRecord
  simp only [hhdr, hcheck, Bool.false_eq_true, if_false, hfields]
  rw [fillItems]
  simp only [h2, if_false, h3, hget]

/-- C13. For a stream whose key is the single index `f ≥ 1`, built patterns and
a writer that does not fail: when the first data record and the records `pre`
after it have at least `f` fields and the next record `bad` has fewer, the
record loop ends at `bad` with an index error (the record is neither skipped
nor validated again: the field list is unchanged and no warning is added), and
the output at that point is the output so far followed by the kept records
among the first record and `pre`. -/
theorem short_record_aborts {Re : Type} (W : World Re) (cfg : Config) (pm : PatternsMap Re)
    (st : St) (first : Record) (pre : List Record) (bad : Record) (post : List Record)
    (f : Nat)
    (hpm : buildPatterns W cfg = .ok pm) (hw : ∀ o r, W.writeErr o r = none)
    (hhdr : st.parseHeaderRow = false) (hcheck : st.checkFields = true)
    (hfields : st.fields = [(f : Int)]) (hf : 1 ≤ f) (hfirst : f ≤ first.length)
    (hpre : ∀ r ∈ pre, f ≤ r.length) (hbad : bad.length < f) :
    ∃ s, recordsLoop W cfg pm st (first :: pre ++ bad :: post) = (s, some .indexOutOfRange) ∧
      s.fields = [(f : Int)] ∧ s.warns = st.warns ∧
      s.out = st.out ++ (first :: pre).filter (keeps W cfg pm [(f : Int)]) := by
  have hall : ∀ r ∈ first :: pre, f ≤ r.length := by
    intro r hr
    rcases List.mem_cons.mp hr with h | h
    · rw [h]
      exact hfirst
    · exact hpre r h
  obtain ⟨s, t1, t2, t3, t4, t5, _, t7⟩ := recordsLoop_total W cfg pm st (first :: pre) f hpm hw
    hhdr hfields hf (Or.inl hcheck) hall
  obtain ⟨c1, _⟩ := t5 (by simp)
  refine ⟨s, ?_, t3, t4, t7⟩
  have happ : first :: pre ++ bad :: post = (first :: pre) ++ (bad :: post) := by simp
  rw [happ, recordsLoop_append, t1]
  simp only
  unfold recordsLoop
  rw [processRecord_short W cfg pm s bad f t2 c1 t3 hf hbad]

/-- Witness for C13: after the fruit header, the records `1,apple` and
`2,banana` are followed by the one-field record `3`. -/
theorem short_record_aborts_witness :
    ∃ s, recordsLoop fruitWorld (fruitConfig false false) [("apple", none)] afterHeader
        (["1", "apple"] :: [["2", "banana"]] ++ ["3"] :: [["4", "apple"]]) =
          (s, some .indexOutOfRange) ∧
      s.fields = [((2 : Nat) : Int)] ∧ s.warns = afterHeader.warns ∧
      s.out = afterHeader.out ++ (["1", "apple"] :: [["2", "banana"]]).filter
        (keeps fruitWorld (fruitConfig false false) [("apple", none)] [((2 : Nat) : Int)]) :=
  short_record_aborts fruitWorld (fruitConfig false false) [("apple", none)] afterHeader
    ["1", "apple"] [["2", "banana"]] ["3"] [["4", "apple"]] 2 rfl (fun _ _ => rfl) rfl rfl rfl
    (by decide) (by decide) (by decide) (by decide)

/-! ## The no-fields-matched failure -/

theorem chunksLoop_of_records_err {Re : Type} (W : World Re) (cfg : Config)
    (pm : PatternsMap Re) (st s : St) (cs : List (Chunk Record)) (e : Err)
    (h : recordsLoop W cfg pm st (readable cs) = (s, some e)) :
    chunksLoop W cfg pm st cs = (s, some e) := by
  induction cs generalizing st with
  | nil => simp [readable, recordsLoop] at h
  | cons c rest ih =>
    unfold readable at h
    unfold chunksLoop
    cases hE : c.Err with
    | some m => simp [hE, recordsLoop] at h
    | none =>
      simp only [hE, recordsLoop_append] at h
      simp only
      rcases hl : recordsLoop W cfg pm st c.Data with ⟨s2, _ | e2⟩
      · rw [hl] at h
        exact ih s2 h
      · rw [hl] at h
        exact h

theorem headerMap_absent (h : Record) (col : String) (hno : col ∉ h) :
    mapGet (headerMap h) col = none := by
  unfold headerMap
  rw [(headerMapFrom_get [] 0 h col).1 hno]
  rfl

/-- On a stream entered with no field bound (the first stream of a run), what
C12 describes holds. With the key given by the
column name `col`, when the header `h` does not contain `col` and is accepted
by the writer: the step on `h` ends without error with an empty field list and
one warning, and the stream ends at its first data record with the
no-fields-matched error, the output being the output so far followed by `h`
alone. For a key given by the index `f`, when the first data record has fewer
than `f` fields: the step on that record drops `f` with one warning and ends
the loop with the same error, the output unchanged. -/
theorem unresolved_key_aborts {Re : Type} (W : World Re) (cfg : Config) (pm : PatternsMap Re)
    (st : St) (cs : List (Chunk Record)) (h d : Record) (rest : List Record) (col : String)
    (st0 : St) (f : Int) :
    (cfg.needParseHeaderRow = true → st.fields = [] → cfg.colnames = [col] → col ∉ h →
      readable cs = h :: d :: rest → W.writeErr st.out h = none →
      processRecord W cfg pm (fileInit cfg st) h =
        (⟨[], st.out ++ [h], st.warns ++ [.unknownColumn col], false, true, []⟩, none) ∧
      chunksLoop W cfg pm (fileInit cfg st) cs =
        (⟨[], st.out ++ [h], st.warns ++ [.unknownColumn col], false, true, []⟩,
          some .noFieldsMatched)) ∧
    (st0.parseHeaderRow = false → st0.checkFields = true → st0.fields = [f] →
      f > (d.length : Int) →
      recordsLoop W cfg pm st0 (d :: rest) =
        ({ st0 with fields := [], warns := st0.warns ++ [.unmatchedField f] },
          some .noFieldsMatched)) := by
  constructor
  · intro hhdr hfields hcol hno hrec hw
    have hstep : processRecord W cfg pm (fileInit cfg st) h =
        (⟨[], st.out ++ [h], st.warns ++ [.unknownColumn col], false, true, []⟩, none) := by
      simp [processRecord, fileInit, hhdr, parseHeader, resolveHeader, hfields, hcol,
        resolveColnames, headerMap_absent h col hno, hw]
    refine ⟨hstep, ?_⟩
    apply chunksLoop_of_records_err
    rw [hrec]
    unfold recordsLoop
    rw [hstep]
    simp only
    unfold recordsLoop
    simp [processRecord, validateFields, checkFieldsLoop]
  · intro hhdr hcheck hfields hgt
    unfold recordsLoop
    simp [processRecord, validateFields, checkFieldsLoop, hhdr, hcheck, hfields, hgt]

/-- Instance of `unresolved_key_aborts`: the fruit table with the key name
`colour`, and the data
record `1,apple` with the key index 3. -/
theorem unresolved_key_aborts_witness :
    chunksLoop fruitWorld { fruitConfig false false with colnames := ["colour"] }
        [("apple", none)]
        (fileInit { fruitConfig false false with colnames := ["colour"] }
          ⟨[], [], [], false, true, []⟩) [⟨fruitRows, none⟩] =
      (⟨[], [] ++ [["id", "name"]], [] ++ [.unknownColumn "colour"], false, true, []⟩,
        some .noFieldsMatched) ∧
    recordsLoop fruitWorld (fruitConfig false false) [("apple", none)]
        ⟨[3], [], [], false, true, []⟩ (["1", "apple"] :: [["2", "banana"], ["3", "Apple"]]) =
      ({ (⟨[3], [], [], false, true, []⟩ : St) with
          fields := [], warns := [] ++ [.unmatchedField 3] },
        some .noFieldsMatched) :=
  ⟨((unresolved_key_aborts fruitWorld { fruitConfig false false with colnames := ["colour"] }
      [("apple", none)] ⟨[], [], [], false, true, []⟩ [⟨fruitRows, none⟩] ["id", "name"]
      ["1", "apple"] [["2", "banana"], ["3", "Apple"]] "colour"
      ⟨[3], [], [], false, true, []⟩ 3).1 rfl rfl rfl (by decide) rfl rfl).2,
    (unresolved_key_aborts fruitWorld (fruitConfig false false)
      [("apple", none)] ⟨[], [], [], false, true, []⟩ [⟨fruitRows, none⟩] ["id", "name"]
      ["1", "apple"] [["2", "banana"], ["3", "Apple"]] "colour"
      ⟨[3], [], [], false, true, []⟩ 3).2 rfl rfl rfl (by decide)⟩

/-! ## Streams with a header only, and the output at the failure -/

/-- C19. A stream processed with header parsing on that consists of the header
row `h` only, accepted by the writer, is processed without error and its output
is the output so far followed by `h`, whatever the key is: a key name absent
from `h` leaves an empty field list and one warning, and a field list bound
before (such as an index beyond the header) is left as it is, unvalidated. -/
theorem header_only_stream {Re : Type} (W : World Re) (cfg : Config) (pm : PatternsMap Re)
    (st : St) (cs : List (Chunk Record)) (h : Record)
    (hhdr : cfg.needParseHeaderRow = true) (hcs : ∀ c ∈ cs, c.Err = none)
    (hrec : allRecords cs = [h]) (hw : W.writeErr st.out h = none) :
    ∃ s, chunksLoop W cfg pm (fileInit cfg st) cs = (s, none) ∧ s.out = st.out ++ [h] ∧
      (∀ col, st.fields = [] → cfg.colnames = [col] → col ∉ h →
        s.fields = [] ∧ s.warns = st.warns ++ [.unknownColumn col]) ∧
      (st.fields ≠ [] → s.fields = st.fields ∧ s.warns = st.warns) := by
  rw [chunksLoop_noErr W cfg pm _ cs hcs, hrec]
  have hout : (resolveHeader cfg (fileInit cfg st) h).out = st.out :=
    (resolveHeader_keeps cfg (fileInit cfg st) h).1
  refine ⟨{ resolveHeader cfg (fileInit cfg st) h with
      out := st.out ++ [h], parseHeaderRow := false }, ?_, rfl, ?_, ?_⟩
  · have hphr : (fileInit cfg st).parseHeaderRow = true := by simp [fileInit, hhdr]
    have hstep : processRecord W cfg pm (fileInit cfg st) h =
        ({ resolveHeader cfg (fileInit cfg st) h with
            out := st.out ++ [h], parseHeaderRow := false }, none) := by
      unfold processRecord parseHeader
      simp only [hphr, if_true, hout, hw]
    unfold recordsLoop
    rw [hstep]
    simp only
    unfold recordsLoop
    rfl
  · intro col hfields hcol hno
    simp [resolveHeader, fileInit, hfields, hcol, resolveColnames, headerMap_absent h col hno]
  · intro hne
    have hlen : ¬ st.fields.length = 0 := fun hc => hne (List.length_eq_zero.mp hc)
    simp [resolveHeader, fileInit, hlen]

/-- Witness for C19: the header `id,name` alone with the key name `colour`. -/
theorem header_only_stream_witness :
    ∃ s, chunksLoop fruitWorld { fruitConfig false false with colnames := ["colour"] }
        [("apple", none)]
        (fileInit { fruitConfig false false with colnames := ["colour"] }
          ⟨[], [], [], false, true, []⟩) [⟨[["id", "name"]], none⟩] = (s, none) ∧
      s.out = [] ++ [["id", "name"]] ∧
      (∀ col, ([] : List Int) = [] →
        ({ fruitConfig false false with colnames := ["colour"] } : Config).colnames = [col] →
        col ∉ ["id", "name"] → s.fields = [] ∧ s.warns = [] ++ [.unknownColumn col]) ∧
      (([] : List Int) ≠ [] → s.fields = [] ∧ s.warns = []) :=
  header_only_stream fruitWorld { fruitConfig false false with colnames := ["colour"] }
    [("apple", none)] ⟨[], [], [], false, true, []⟩ [⟨[["id", "name"]], none⟩] ["id", "name"]
    rfl (by intro c hc; simp at hc; subst hc; rfl) rfl rfl

theorem chunksLoop_to_records {Re : Type} (W : World Re) (cfg : Config)
    (pm : PatternsMap Re) (st s : St) (cs : List (Chunk Record)) (e : Err)
    (h : chunksLoop W cfg pm st cs = (s, some e)) (hne : ∀ m, e ≠ .chunk m) :
    recordsLoop W cfg pm st (readable cs) = (s, some e) := by
  induction cs generalizing st with
  | nil => simp [chunksLoop] at h
  | cons c rest ih =>
    unfold chunksLoop at h
    unfold readable
    cases hE : c.Err with
    | some m =>
      simp only [hE, Prod.mk.injEq, Option.some.injEq] at h
      exact absurd h.2.symm (hne m)
    | none =>
      simp only [hE] at h
      simp only [recordsLoop_append]
      rcases hl : recordsLoop W cfg pm st c.Data with ⟨s2, _ | e2⟩
      · rw [hl] at h
        exact ih s2 h
      · rw [hl] at h
        exact h

theorem fillItems_err_index (r : Record) (i : Nat) (fs : List Int) (items : List String)
    (e : Err) (h : fillItems r i fs items = .error e) : e = .indexOutOfRange := by
  induction fs generalizing i items with
  | nil => simp [fillItems] at h
  | cons f rest ih =>
    rw [fillItems] at h
    split at h
    · simp only [Except.error.injEq] at h
      exact h.symm
    · split at h
      · simp only [Except.error.injEq] at h
        exact h.symm
      · split at h
        · exact ih _ _ h
        · simp only [Except.error.injEq] at h
          exact h.symm

theorem matchRecord_flags {Re : Type} (W : World Re) (cfg : Config) (pm : PatternsMap Re)
    (sv : St) (r : Record) :
    (matchRecord W cfg pm sv r).1.parseHeaderRow = sv.parseHeaderRow ∧
      (matchRecord W cfg pm sv r).1.checkFields = sv.checkFields ∧
      (matchRecord W cfg pm sv r).2 ≠ some .noFieldsMatched := by
  unfold matchRecord
  split
  · rename_i e he
    rw [fillItems_err_index _ _ _ _ e he]
    simp
  · simp only
    split
    · simp
    · split
      · rename_i e he
        rw [isHit_err_nil W cfg pm _ e he]
        simp
      · split
        · split <;> simp
        · simp

theorem processRecord_nfm {Re : Type} (W : World Re) (cfg : Config) (pm : PatternsMap Re)
    (st s : St) (r : Record) (hhdr : st.parseHeaderRow = false)
    (h : processRecord W cfg pm st r = (s, some .noFieldsMatched)) :
    st.checkFields = true ∧ s.out = st.out := by
  unfold processRecord at h
  simp only [hhdr, Bool.false_eq_true, if_false] at h
  rcases hv : validateFields st r with ⟨sv, _ | e⟩
  · rw [hv] at h
    simp only at h
    have := (matchRecord_flags W cfg pm sv r).2.2
    rw [h] at this
    simp at this
  · rw [hv] at h
    simp only [Prod.mk.injEq, Option.some.injEq] at h
    obtain ⟨h1, h2⟩ := h
    subst h1
    have hk := (validateFields_keeps st r).1
    rw [hv] at hk
    refine ⟨?_, hk⟩
    by_contra hc
    unfold validateFields at hv
    simp [hc] at hv

theorem processRecord_flags {Re : Type} (W : World Re) (cfg : Config) (pm : PatternsMap Re)
    (st s : St) (r : Record) (hhdr : st.parseHeaderRow = false)
    (h : processRecord W cfg pm st r = (s, none)) :
    s.parseHeaderRow = false ∧ s.checkFields = false := by
  unfold processRecord at h
  simp only [hhdr, Bool.false_eq_true, if_false] at h
  rcases hv : validateFields st r with ⟨sv, _ | e⟩
  · rw [hv] at h
    simp only at h
    obtain ⟨v1, v2, _⟩ := validateFields_ok st sv r hv
    obtain ⟨m1, m2, _⟩ := matchRecord_flags W cfg pm sv r
    rw [h] at m1 m2
    exact ⟨by rw [m1, v1, hhdr], by rw [m2, v2]⟩
  · rw [hv] at h
    simp at h

theorem recordsLoop_no_nfm {Re : Type} (W : World Re) (cfg : Config) (pm : PatternsMap Re)
    (st : St) (rs : List Record) (hhdr : st.parseHeaderRow = false)
    (hcheck : st.checkFields = false) :
    (recordsLoop W cfg pm st rs).2 ≠ some .noFieldsMatched := by
  induction rs generalizing st with
  | nil => simp [recordsLoop]
  | cons r rest ih =>
    unfold recordsLoop
    rcases hstep : processRecord W cfg pm st r with ⟨s2, _ | e⟩
    · obtain ⟨f1, f2⟩ := processRecord_flags W cfg pm st s2 r hhdr hstep
      exact ih s2 f1 f2
    · simp only [ne_eq, Option.some.injEq]
      intro he
      subst he
      have := (processRecord_nfm W cfg pm st s2 r hhdr hstep).1
      rw [hcheck] at this
      cases this

/-- C20 (amended). Whenever a stream processed with header parsing on ends
with the no-fields-matched error, the stream has delivered a header row `h`
and at least one data record, and the records handed to the writer up to the
failure are those handed to it before the stream (for earlier streams)
followed by `h`: the log of `Write` calls differs from the log before the
stream. Nothing is said about what has reached the output. -/
theorem no_fields_failure_after_header {Re : Type} (W : World Re) (cfg : Config)
    (pm : PatternsMap Re) (st s : St) (cs : List (Chunk Record))
    (hhdr : cfg.needParseHeaderRow = true)
    (hfail : chunksLoop W cfg pm (fileInit cfg st) cs = (s, some .noFieldsMatched)) :
    ∃ h d rest, readable cs = h :: d :: rest ∧ s.out = st.out ++ [h] ∧ s.out ≠ st.out := by
  have hrec := chunksLoop_to_records W cfg pm _ s cs _ hfail (by intro m; simp)
  have hphr : (fileInit cfg st).parseHeaderRow = true := by simp [fileInit, hhdr]
  cases hrs : readable cs with
  | nil =>
    rw [hrs] at hrec
    simp [recordsLoop] at hrec
  | cons h tl =>
    rw [hrs] at hrec
    unfold recordsLoop at hrec
    have hstep : processRecord W cfg pm (fileInit cfg st) h =
        parseHeader W cfg (fileInit cfg st) h := by
      simp [processRecord, hphr]
    rw [hstep] at hrec
    have hout := parseHeader_out W cfg (fileInit cfg st) h
    rcases hp : parseHeader W cfg (fileInit cfg st) h with ⟨s2, _ | e⟩
    · rw [hp] at hrec hout
      simp only at hrec hout
      obtain ⟨q1, q2, _⟩ := parseHeader_ok W cfg _ s2 h hp
      have hs2out : s2.out = st.out ++ [h] := by simpa [fileInit] using hout
      cases tl with
      | nil => simp [recordsLoop] at hrec
      | cons d rest =>
        refine ⟨h, d, rest, rfl, ?_⟩
        unfold recordsLoop at hrec
        rcases hd : processRecord W cfg pm s2 d with ⟨s3, _ | e⟩
        · rw [hd] at hrec
          simp only at hrec
          obtain ⟨f1, f2⟩ := processRecord_flags W cfg pm s2 s3 d q1 hd
          have := recordsLoop_no_nfm W cfg pm s3 rest f1 f2
          rw [hrec] at this
          simp at this
        · rw [hd] at hrec
          simp only [Prod.mk.injEq, Option.some.injEq] at hrec
          obtain ⟨h1, h2⟩ := hrec
          subst h1 h2
          obtain ⟨_, n2⟩ := processRecord_nfm W cfg pm s2 s3 d q1 hd
          rw [n2, hs2out]
          exact ⟨rfl, by simp⟩
    · rw [hp] at hrec
      unfold parseHeader at hp
      simp only at hp
      split at hp
      · simp only [Prod.mk.injEq, Option.some.injEq] at hp hrec
        rw [← hp.2] at hrec
        simp at hrec
      · simp at hp

/-- Witness for C20 as amended: the fruit table with the key name `colour`, processed
after one record has been written for an earlier stream. -/
theorem no_fields_failure_after_header_witness :
    ∃ h d rest, readable [(⟨fruitRows, none⟩ : Chunk Record)] = h :: d :: rest ∧
      (⟨[], [["x"]] ++ [["id", "name"]], [] ++ [.unknownColumn "colour"], false, true, []⟩ :
        St).out = [["x"]] ++ [h] ∧
      (⟨[], [["x"]] ++ [["id", "name"]], [] ++ [.unknownColumn "colour"], false, true, []⟩ :
        St).out ≠ [["x"]] :=
  no_fields_failure_after_header fruitWorld
    { fruitConfig false false with colnames := ["colour"] } [("apple", none)]
    ⟨[], [["x"]], [], false, true, []⟩
    ⟨[], [["x"]] ++ [["id", "name"]], [] ++ [.unknownColumn "colour"], false, true, []⟩
    [⟨fruitRows, none⟩] rfl (by decide)

/-! ## The patterns as a set -/

theorem filePatternsChunks_ok_noErr {Re : Type} (W : World Re) (ic re : Bool)
    (cs : List (Chunk String)) (m m1 : PatternsMap Re)
    (h : filePatternsChunks W ic re m cs = .ok m1) : ∀ c ∈ cs, c.Err = none := by
  induction cs generalizing m with
  | nil =>
    intro c hc
    simp at hc
  | cons c rest ih =>
    unfold filePatternsChunks at h
    cases hE : c.Err with
    | some e => simp [hE] at h
    | none =>
      simp only [hE] at h
      cases hD : filePatternsData W ic re m c.Data with
      | error e => simp [hD] at h
      | ok m2 =>
        simp only [hD] at h
        intro q hq
        rcases List.mem_cons.mp hq with h1 | h1
        · rw [h1]
          exact hE
        · exact ih m2 h q h1

theorem buildPatterns_ok_readable {Re : Type} (W : World Re) (cfg : Config)
    (pm : PatternsMap Re) (h : buildPatterns W cfg = .ok pm) : sourceReadable W cfg = true := by
  unfold buildPatterns at h
  unfold sourceReadable
  by_cases hf : cfg.patternFile = ""
  · simp [hf]
  · simp only [ne_eq, hf, not_false_eq_true, if_true] at h ⊢
    cases hI : inlinePatterns W cfg.ignoreCase cfg.useRegexp [] cfg.patterns with
    | error e => simp [hI] at h
    | ok m =>
      simp only [hI] at h
      cases hR : W.patternReader cfg.patternFile with
      | error e => simp [hR] at h
      | ok cs =>
        simp only [hR] at h
        simp only [List.all_eq_true, Option.isNone_iff_eq_none]
        exact filePatternsChunks_ok_noErr W _ _ cs m pm h

theorem processRecord_congr {Re : Type} (W : World Re) (cfg cfg2 : Config)
    (pm pm2 : PatternsMap Re) (st : St) (r : Record)
    (hhit : ∀ v, isHit W cfg2 pm2 v = isHit W cfg pm v)
    (hinv : cfg2.invert = cfg.invert) (hcol : cfg2.colnames = cfg.colnames) :
    processRecord W cfg2 pm2 st r = processRecord W cfg pm st r := by
  unfold processRecord matchRecord parseHeader resolveHeader
  simp only [hhit, hinv, hcol]

theorem isHit_of_same_patterns {Re : Type} (W : World Re) (ic re : Bool)
    (cfg cfg2 : Config) (P1 P2 : List String) (pm1 : PatternsMap Re)
    (hic1 : cfg.ignoreCase = ic) (hic2 : cfg2.ignoreCase = ic)
    (hre1 : cfg.useRegexp = re) (hre2 : cfg2.useRegexp = re)
    (hset : ∀ p, p ∈ P1 ↔ p ∈ P2)
    (hpm : inlinePatterns W ic re [] P1 = .ok pm1) :
    ∃ pm2, inlinePatterns W ic re [] P2 = .ok pm2 ∧
      ∀ v, isHit W cfg2 pm2 v = isHit W cfg pm1 v := by
  cases re with
  | false =>
    obtain ⟨m1, a1, a2⟩ := inlinePatterns_literal W ic P1 ([] : PatternsMap Re)
    obtain ⟨m2, b1, b2⟩ := inlinePatterns_literal W ic P2 ([] : PatternsMap Re)
    rw [a1] at hpm
    simp only [Except.ok.injEq] at hpm
    subst hpm
    refine ⟨m2, b1, ?_⟩
    intro v
    rw [isHit_literal W cfg2 m2 v hre2, isHit_literal W cfg m1 v hre1, hic1, hic2]
    congr 1
    rw [Bool.eq_iff_iff, a2, b2]
    simp only [mapGet, Option.isSome_none, Bool.false_eq_true, false_or]
    constructor
    · rintro ⟨p, hp, hk⟩
      exact ⟨p, (hset p).mpr hp, hk⟩
    · rintro ⟨p, hp, hk⟩
      exact ⟨p, (hset p).mp hp, hk⟩
  | true =>
    have hall1 := inlinePatterns_regexp_ok_all W ic P1 [] pm1 hpm
    have hall2 : ∀ p ∈ P2, ∃ r, W.compile (regexpSource ic p) = .ok r :=
      fun p hp => hall1 p ((hset p).mpr hp)
    obtain ⟨m1, a1, a2, a3⟩ := inlinePatterns_regexp W ic P1 [] hall1
    obtain ⟨m2, b1, b2, b3⟩ := inlinePatterns_regexp W ic P2 [] hall2
    rw [a1] at hpm
    simp only [Except.ok.injEq] at hpm
    subst hpm
    refine ⟨m2, b1, ?_⟩
    intro v
    have c1 : allCompiled m1 := by
      intro e he
      rcases a2 e he with h4 | ⟨p, _, r, _, heq⟩
      · simp at h4
      · exact ⟨r, by rw [heq]⟩
    have c2 : allCompiled m2 := by
      intro e he
      rcases b2 e he with h4 | ⟨p, _, r, _, heq⟩
      · simp at h4
      · exact ⟨r, by rw [heq]⟩
    obtain ⟨hit1, d1, d2⟩ := regexpLoop_allCompiled W v m1 c1
    obtain ⟨hit2, e1, e2⟩ := regexpLoop_allCompiled W v m2 c2
    have hh1 : isHit W cfg m1 v = .ok hit1 := by simp [isHit, hre1, d1]
    have hh2 : isHit W cfg2 m2 v = .ok hit2 := by simp [isHit, hre2, e1]
    rw [hh1, hh2]
    congr 1
    rw [Bool.eq_iff_iff, d2, e2]
    constructor
    · rintro ⟨e, he, r, h7, h8⟩
      rcases b2 e he with h4 | ⟨p, hp, r1, hc, heq⟩
      · simp at h4
      · subst heq
        simp only [Option.some.injEq] at h7
        subst h7
        obtain ⟨r2, hc2, hget⟩ := (a3 p).1 ((hset p).mpr hp)
        rw [hc] at hc2
        simp only [Except.ok.injEq] at hc2
        subst hc2
        exact ⟨(p, some r1), mem_of_mapGet m1 p (some r1) hget, r1, rfl, h8⟩
    · rintro ⟨e, he, r, h7, h8⟩
      rcases a2 e he with h4 | ⟨p, hp, r1, hc, heq⟩
      · simp at h4
      · subst heq
        simp only [Option.some.injEq] at h7
        subst h7
        obtain ⟨r2, hc2, hget⟩ := (b3 p).1 ((hset p).mp hp)
        rw [hc] at hc2
        simp only [Except.ok.injEq] at hc2
        subst hc2
        exact ⟨(p, some r1), mem_of_mapGet m2 p (some r1) hget, r1, rfl, h8⟩

theorem isHit_perm {Re : Type} (W : World Re) (cfg : Config) (pm pm3 : PatternsMap Re)
    (hcomp : cfg.useRegexp = true → allCompiled pm) (hperm : pm3.Perm pm) (v : String) :
    isHit W cfg pm3 v = isHit W cfg pm v := by
  cases hre : cfg.useRegexp with
  | false =>
    rw [isHit_literal W cfg pm3 v hre, isHit_literal W cfg pm v hre]
    congr 1
    rw [Bool.eq_iff_iff, mapGet_isSome_iff, mapGet_isSome_iff]
    exact (hperm.map Prod.fst).mem_iff
  | true =>
    have c1 := hcomp hre
    have c3 : allCompiled pm3 := fun e he => c1 e (hperm.mem_iff.mp he)
    obtain ⟨hit1, d1, d2⟩ := regexpLoop_allCompiled W v pm c1
    obtain ⟨hit3, e1, e2⟩ := regexpLoop_allCompiled W v pm3 c3
    have hh1 : isHit W cfg pm v = .ok hit1 := by simp [isHit, hre, d1]
    have hh3 : isHit W cfg pm3 v = .ok hit3 := by simp [isHit, hre, e1]
    rw [hh1, hh3]
    congr 1
    rw [Bool.eq_iff_iff, d2, e2]
    constructor
    · rintro ⟨e, he, r, h7, h8⟩
      exact ⟨e, hperm.mem_iff.mp he, r, h7, h8⟩
    · rintro ⟨e, he, r, h7, h8⟩
      exact ⟨e, hperm.mem_iff.mpr he, r, h7, h8⟩

/-- C16. When the pattern map is built for a configuration, it is also built
for the same configuration with its inline patterns replaced by any list with
the same members (reordered, or with entries repeated or merged), in either
mode and with either ignore-case setting, and every step of the record loop is
the same with the two maps; and every step is the same when the entries of the
map are taken in any other order. -/
theorem keep_depends_on_pattern_set {Re : Type} (W : World Re) (cfg : Config)
    (P2 : List String) (pm1 : PatternsMap Re)
    (hset : ∀ p, p ∈ cfg.patterns ↔ p ∈ P2) (hpm : buildPatterns W cfg = .ok pm1) :
    ∃ pm2, buildPatterns W (withPatterns cfg P2) = .ok pm2 ∧
      (∀ st r, processRecord W (withPatterns cfg P2) pm2 st r = processRecord W cfg pm1 st r) ∧
      (∀ pm3 : PatternsMap Re, pm3.Perm pm1 →
        ∀ st r, processRecord W cfg pm3 st r = processRecord W cfg pm1 st r) := by
  have hsrc := buildPatterns_ok_readable W cfg pm1 hpm
  have hsrc2 : sourceReadable W (withPatterns cfg P2) = true := hsrc
  have hset2 : ∀ p, p ∈ suppliedPatterns W cfg ↔ p ∈ suppliedPatterns W (withPatterns cfg P2) := by
    intro p
    unfold suppliedPatterns
    simp only [withPatterns]
    split
    · split
      · simp only [List.mem_append, hset p]
      · exact hset p
    · exact hset p
  rw [buildPatterns_supplied W cfg hsrc] at hpm
  obtain ⟨pm2, h1, h2⟩ := isHit_of_same_patterns W cfg.ignoreCase cfg.useRegexp
    cfg (withPatterns cfg P2) _ _ pm1 rfl rfl rfl rfl hset2 hpm
  refine ⟨pm2, ?_, ?_, ?_⟩
  · rw [buildPatterns_supplied W _ hsrc2]
    exact h1
  · intro st r
    exact processRecord_congr W cfg (withPatterns cfg P2) pm1 pm2 st r h2 rfl rfl
  · intro pm3 hperm st r
    have hcomp : cfg.useRegexp = true → allCompiled pm1 := by
      intro hre
      rw [hre] at hpm
      exact inlinePatterns_allCompiled W _ _ [] pm1 hpm (by intro e he; simp at he)
    exact processRecord_congr W cfg cfg pm1 pm3 st r (isHit_perm W cfg pm1 pm3 hcomp hperm)
      rfl rfl

/-- Witness for C16: the two patterns `a` and `b` in regexp mode, against the
list `b`, `a`, `b`. -/
theorem keep_depends_on_pattern_set_witness :
    ∃ pm2, buildPatterns fruitWorld (withPatterns twoPatternConfig ["b", "a", "b"]) = .ok pm2 ∧
      (∀ st r, processRecord fruitWorld (withPatterns twoPatternConfig ["b", "a", "b"]) pm2 st r =
        processRecord fruitWorld twoPatternConfig
          [("a", some (false, "a".data)), ("b", some (false, "b".data))] st r) ∧
      (∀ pm3 : PatternsMap (Bool × List Char),
        pm3.Perm [("a", some (false, "a".data)), ("b", some (false, "b".data))] →
        ∀ st r, processRecord fruitWorld twoPatternConfig pm3 st r =
          processRecord fruitWorld twoPatternConfig
            [("a", some (false, "a".data)), ("b", some (false, "b".data))] st r) :=
  keep_depends_on_pattern_set fruitWorld twoPatternConfig ["b", "a", "b"]
    [("a", some (false, "a".data)), ("b", some (false, "b".data))]
    (by intro p; simp [twoPatternConfig]; tauto) rfl

/-- C11 (counterexample). In regexp mode with the inline pattern `a` and a
pattern file that cannot be opened, the build fails with the reader's error
although every supplied pattern compiles, and the run ends with that error
with nothing written. -/
theorem unreadable_source_fails_build :
    missingSourceConfig.useRegexp = true ∧
    buildPatterns fruitWorld missingSourceConfig = .error (.patternReader "no such file") ∧
    Run fruitWorld missingSourceConfig ["fruit.csv"] =
      ⟨[], [], some (.patternReader "no such file")⟩ ∧
    (∀ p ∈ suppliedPatterns fruitWorld missingSourceConfig, ∃ re,
      fruitWorld.compile (regexpSource missingSourceConfig.ignoreCase p) = .ok re) ∧
    ¬ ((∃ e, buildPatterns fruitWorld missingSourceConfig = .error e) ↔
      ∃ p ∈ suppliedPatterns fruitWorld missingSourceConfig, ∃ msg,
        fruitWorld.compile (regexpSource missingSourceConfig.ignoreCase p) = .error msg) := by
  have hbuild : buildPatterns fruitWorld missingSourceConfig =
      .error (.patternReader "no such file") := rfl
  have hsup : suppliedPatterns fruitWorld missingSourceConfig = ["a"] := by decide
  have hall : ∀ p ∈ suppliedPatterns fruitWorld missingSourceConfig, ∃ re,
      fruitWorld.compile (regexpSource missingSourceConfig.ignoreCase p) = .ok re := by
    intro p hp
    rw [hsup] at hp
    have hp2 : p = "a" := by simpa using hp
    subst hp2
    exact ⟨_, rfl⟩
  refine ⟨rfl, hbuild, by decide, hall, ?_⟩
  intro hiff
  obtain ⟨p, hp, msg, hc⟩ := hiff.mp ⟨_, hbuild⟩
  obtain ⟨re, hok⟩ := hall p hp
  rw [hok] at hc
  cases hc

/-! ## Later streams of a run reuse the index of the first -/

/-- C12 (the code at the failing input). With the key given by the name
`name` and the pattern `apple`: the file `noname.csv`, whose header has no
column `name`, processed alone gets the warning and ends with the
no-fields-matched error at its first data record, which is not written;
processed after `first.csv`, which bound the key to field 2, it gets no
warning and no error, and its record `x,apple` is evaluated on field 2 and
written. -/
theorem absent_name_on_later_stream_unreported :
    Run (sampleWorld laterFiles) (fruitConfig false false) ["noname.csv"] =
      ⟨[["a", "b"]], [.unknownColumn "name"], some .noFieldsMatched⟩ ∧
    Run (sampleWorld laterFiles) (fruitConfig false false) ["first.csv", "noname.csv"] =
      ⟨[["id", "name"], ["1", "apple"], ["a", "b"], ["x", "apple"]], [], none⟩ := by
  constructor <;> decide

/-- C15 (the code at the failing input). With the key given by the name
`name` and the pattern `apple`: the file `one.csv`, whose header is the single
column `name`, processed alone binds the key to field 1 and keeps its record
`apple`; processed after `first.csv`, which bound the key to field 2, the key
stays bound to field 2, beyond the header, and the validation of the first
data record, which is as long as the header, drops it and ends the run with
the no-fields-matched error. -/
theorem later_header_keeps_stale_index :
    Run (sampleWorld laterFiles) (fruitConfig false false) ["one.csv"] =
      ⟨[["name"], ["apple"]], [], none⟩ ∧
    Run (sampleWorld laterFiles) (fruitConfig false false) ["first.csv", "one.csv"] =
      ⟨[["id", "name"], ["1", "apple"], ["name"]], [.unmatchedField 2],
        some .noFieldsMatched⟩ := by
  constructor <;> decide

/-! ## What has reached the output at the no-fields-matched failure -/

/-- C20 (counterexample). For the fruit table with the key name `colour` the
stream, processed with header parsing on, ends with the no-fields-matched
error after the header has been handed to the writer, and so does the run;
the header is still in the writer's buffer, so what has reached the output at
the failure is what had reached it before the stream began: nothing. -/
theorem header_still_buffered_at_failure :
    colourConfig.needParseHeaderRow = true ∧
    chunksLoop fruitWorld colourConfig [("apple", none)]
        (fileInit colourConfig ⟨[], [], [], false, true, []⟩) [⟨fruitRows, none⟩] =
      (⟨[], [["id", "name"]], [.unknownColumn "colour"], false, true, []⟩,
        some .noFieldsMatched) ∧
    Run fruitWorld colourConfig ["fruit.csv"] =
      ⟨[["id", "name"]], [.unknownColumn "colour"], some .noFieldsMatched⟩ ∧
    reachedOutput [["id", "name"]] = some [] ∧
    ¬ (reachedOutput [["id", "name"]] ≠ reachedOutput []) := by
  decide

end Csvtk
